import Mathlib

/-!
Verification development for the rust-cdp repository: a shallow embedding of
the JSON message envelope (`src/json.rs`), the wire-level sentinel and enum
error types (`src/proto.rs`), the dispatch derive (`cdp-derive/src/lib.rs`)
and the schema compiler (`cdp/src/generate.rs`), together with theorems
settling the specification claims about them.
-/

namespace Cdp

/-! ## JSON values

Shallow model of `serde_json::Value`.  Numbers are modelled as integers: the
claims under study only exercise integer-valued JSON numbers (message ids and
error codes).  Objects (`serde_json::Map<String, Value>`) are association
lists; lookup and removal act on the first occurrence of a key, which agrees
with map semantics whenever keys are distinct (as in any parsed JSON object).
-/

inductive Json where
  | null : Json
  | bool (b : Bool) : Json
  | num (n : Int) : Json
  | str (s : String) : Json
  | arr (elems : List Json) : Json
  | obj (fields : List (String × Json)) : Json
  deriving Repr

/-- `Map::get`: first binding of a key in an object. -/
def mapGet (fields : List (String × Json)) (key : String) : Option Json :=
  match fields with
  | [] => none
  | (k, v) :: rest => if k = key then some v else mapGet rest key

/-- `Map::remove`: the removed value (first binding) and the remaining object. -/
def mapRemove (fields : List (String × Json)) (key : String) :
    Option Json × List (String × Json) :=
  match fields with
  | [] => (none, [])
  | (k, v) :: rest =>
    if k = key then (some v, rest)
    else
      let (r, rest') := mapRemove rest key
      (r, (k, v) :: rest')

/-- `serde_json::Value::as_u64`: succeeds exactly on non-negative integer numbers. -/
def asU64 (v : Json) : Option Nat :=
  match v with
  | .num n => if 0 ≤ n then some n.toNat else none
  | _ => none

/-! ## Error taxonomy (`src/json.rs`, `JsonCdpErrorKind` / `JsonCdpError`) -/

inductive JsonCdpErrorKind where
  | ParseError
  | InvalidRequest
  | MethodNotFound
  | InvalidParams
  | InternalError
  | ServerError
  | Other (code : Int)
  deriving Repr, DecidableEq

/-- `impl From<i32> for JsonCdpErrorKind` (json.rs lines 646-659). -/
def kindFromCode (code : Int) : JsonCdpErrorKind :=
  if code = -32700 then .ParseError
  else if code = -32600 then .InvalidRequest
  else if code = -32601 then .MethodNotFound
  else if code = -32602 then .InvalidParams
  else if code = -32603 then .InternalError
  else if code = -32000 then .ServerError
  else .Other code

/-- `impl From<JsonCdpErrorKind> for i32` (json.rs lines 661-674). -/
def codeFromKind (kind : JsonCdpErrorKind) : Int :=
  match kind with
  | .ParseError => -32700
  | .InvalidRequest => -32600
  | .MethodNotFound => -32601
  | .InvalidParams => -32602
  | .InternalError => -32603
  | .ServerError => -32000
  | .Other code => code

structure JsonCdpError where
  kind : JsonCdpErrorKind
  message : String
  data : Option Json
  deriving Repr

/-- `JsonCdpError::invalid_json` (json.rs). -/
def JsonCdpError.invalid_json : JsonCdpError :=
  ⟨.ParseError, "Message must be a valid JSON", none⟩

/-- `JsonCdpError::must_be_object` (json.rs). -/
def JsonCdpError.must_be_object : JsonCdpError :=
  ⟨.InvalidRequest, "Message must be an object", none⟩

/-- `JsonCdpError::must_have_id` (json.rs; the source spells the message with
the typo "porperty" on purpose, mirroring the upstream inspector protocol). -/
def JsonCdpError.must_have_id : JsonCdpError :=
  ⟨.InvalidRequest, "Message must have integer \x27id\x27 porperty", none⟩

/-- `JsonCdpError::must_have_method` (json.rs). -/
def JsonCdpError.must_have_method : JsonCdpError :=
  ⟨.InvalidRequest, "Message must have string \x27method\x27 porperty", none⟩

/-- Model of the derived `Deserialize` impl for `JsonCdpError` (json.rs lines
503-510): the input must be a JSON object; field `code` (an integer, converted
through `From<i32>`) populates `kind`, field `message` (a string) populates
`message`, optional field `data` populates `data` (absent means `None`);
unknown keys are ignored. -/
def deserializeJsonCdpError (v : Json) : Option JsonCdpError :=
  match v with
  | .obj fields =>
    match mapGet fields "code", mapGet fields "message" with
    | some (.num code), some (.str message) =>
      some ⟨kindFromCode code, message, mapGet fields "data"⟩
    | _, _ => none
  | _ => none

/-! ## Incoming message parse (`JsonCdpIncoming::parse`, json.rs lines 144-172)

The Rust function first runs `Value::deserialize` on the payload; a payload
that is not syntactically valid JSON is modelled as input `none`.
-/

structure JsonCdpIncoming where
  id : Nat
  command_name : String
  command_params : List (String × Json)
  deriving Repr

/-- `JsonCdpIncoming::parse`.  Steps, in source order: (1) the payload must be
valid JSON (`none` input = syntax error) else `invalid_json` with no id;
(2) the value must be an object else `must_be_object` with no id; (3) `id`
must be present and a non-negative integer (`Value::as_u64`) else
`must_have_id` with no id; (4) `method` must be present and a string else
`must_have_method` carrying the id; (5) `params` is used verbatim when present
and an object and silently replaced by the empty object otherwise. -/
def JsonCdpIncoming.parse (input : Option Json) :
    Except (JsonCdpError × Option Nat) JsonCdpIncoming :=
  match input with
  | none => .error (JsonCdpError.invalid_json, none)
  | some value =>
    match value with
    | .obj obj =>
      match (mapGet obj "id").bind asU64 with
      | none => .error (JsonCdpError.must_have_id, none)
      | some id =>
        let (methodVal, obj') := mapRemove obj "method"
        match methodVal with
        | some (.str method) =>
          let (paramsVal, _) := mapRemove obj' "params"
          let params : List (String × Json) :=
            match paramsVal with
            | some (.obj params) => params
            | _ => []
          .ok ⟨id, method, params⟩
        | _ => .error (JsonCdpError.must_have_method, some id)
    | _ => .error (JsonCdpError.must_be_object, none)

/-! ## Enum wire-string conversion (`src/proto.rs` `ParseEnumError` and the
`FromStr`/`Display` impls emitted by `generate_type_expr_impl`, cdp/src/generate.rs
lines 477-535)

A generated string-keyed enum is identified with the list `vs` of its declared
wire strings; the variant `vs[i]` is represented by the index `i`.  The
generated `from_str` is a `match` over the wire strings in declaration order
(first match wins) with a default arm producing the structured error; the
generated `Display` maps the variant back to its declared wire string.
-/

structure ParseEnumError where
  expected : List String
  actual : String
  deriving Repr, DecidableEq

/-- Index of the first declared wire string equal to `s`, mirroring the arm
order of the generated `match`. -/
def enumFirstMatch (vs : List String) (s : String) : Option Nat :=
  match vs with
  | [] => none
  | v :: rest =>
    if v = s then some 0
    else (enumFirstMatch rest s).map (· + 1)

/-- The generated `FromStr::from_str`: first matching declaration-order arm,
else the structured error carrying the full declared list and the input. -/
def enum_from_str (vs : List String) (s : String) : Except ParseEnumError Nat :=
  match enumFirstMatch vs s with
  | some i => .ok i
  | none => .error ⟨vs, s⟩

/-- The generated `Display::fmt`: variant `i` prints its declared wire string. -/
def enum_to_str (vs : List String) (i : Nat) : String := vs.getD i ""

/-! ## The `Empty` sentinel (`src/proto.rs` lines 17-39)

`Empty` deserializes through the derived impl of the zero-field struct
`EmptyImpl {}`, which accepts any JSON object and ignores every key. -/

/-- Model of `<Empty as Deserialize>::deserialize` on a JSON value. -/
def deserializeEmpty (v : Json) : Option Unit :=
  match v with
  | .obj _ => some ()
  | _ => none

/-! ## The dispatch derive (`cdp-derive/src/lib.rs`)

A user-declared enum is a list of variants; each variant carries its
attributes and its fields.  A field is modelled by its optional identifier
(struct- vs tuple-style, which in the source only changes how the variant is
populated), the `COMMAND_NAME`/`EVENT_NAME` constant of its type (used as the
match key of an unannotated 1-field variant) and the `Deserialize` behaviour
of its type, modelled as a function from the raw parameters to an optional
decoded value.
-/

/-- The shapes of `syn::MetaItem` distinguished by
`extract_method_name_from_attrs`: a `name = "literal"` attribute versus any
other form (word, list, or non-string name-value). -/
inductive AttrForm where
  | nameValueStr (ident : String) (value : String)
  | otherForm (ident : String)

structure FieldDecl where
  fieldIdent : Option String
  tyName : String
  tyDeser : Json → Option Json

structure VariantDecl where
  attrs : List AttrForm
  fields : List FieldDecl

/-- `extract_method_name_from_attrs` (cdp-derive lines 264-286): scan the
attributes in order; a `cdp = "..."` attribute sets the method name, a second
one is an error, and a `cdp` attribute in any other form is an error;
attributes with other names are ignored. -/
def extract_method_name_from_attrs (attrs : List AttrForm)
    (acc : Option String) : Except String (Option String) :=
  match attrs with
  | [] => .ok acc
  | .nameValueStr ident value :: rest =>
    if ident = "cdp" then
      match acc with
      | none => extract_method_name_from_attrs rest (some value)
      | some _ => .error "multiple cdp attributes attached to the variant"
    else extract_method_name_from_attrs rest acc
  | .otherForm ident :: rest =>
    if ident = "cdp" then
      .error "cdp attribute must be used in name-value string form"
    else extract_method_name_from_attrs rest acc

/-- A value produced by the generated dispatcher: `unit i` is the 0-field
variant at declaration index `i` (populated from the `Empty` sentinel),
`payload i v` is the 1-field variant at index `i` holding the decoded
parameters `v`, and `wildcard i name params` is the 2-field variant at index
`i` holding the method name (converted through `From<&str>`, which preserves
the string) and the raw parameters. -/
inductive DispatchedValue where
  | unit (idx : Nat)
  | payload (idx : Nat) (value : Json)
  | wildcard (idx : Nat) (name : String) (params : Json)

/-- One keyed arm of the generated `match name` expression. -/
inductive ArmDesc where
  | unitArm (idx : Nat) (key : String)
  | payloadArm (idx : Nat) (key : String) (deser : Json → Option Json)

/-- The match key an arm tests against the incoming method name. -/
def ArmDesc.key : ArmDesc → String
  | .unitArm _ k => k
  | .payloadArm _ k _ => k

/-- What the arm's body produces once its key has matched: the deserialization
of the raw parameters mapped into the variant constructor (`None` models a
`D::Error`). -/
def ArmDesc.run (arm : ArmDesc) (params : Json) : Option DispatchedValue :=
  match arm with
  | .unitArm i _ => (deserializeEmpty params).map fun _ => .unit i
  | .payloadArm i _ d => (d params).map (.payload i)

/-- The generated dispatcher: the keyed arms in declaration order plus the
optional wildcard arm (variant index and parameter deserializer). -/
structure Matcher where
  arms : List ArmDesc
  wildcard : Option (Nat × (Json → Option Json))

/-- `generate_cdp_deserialize_impl_arm` (cdp-derive lines 139-262): process
one variant, extending the accumulated arms.  In source order: a variant
declared after a wildcard is an error; then the `cdp` attribute is extracted;
then by field count: 0 fields require an explicit name (arm deserializes the
`Empty` sentinel), 1 field matches on the annotation or on the field type's
name constant (arm deserializes the field type), 2 fields install the wildcard
arm, and any other count is an error. -/
def generate_cdp_deserialize_impl_arm (idx : Nat) (variant : VariantDecl)
    (st : Matcher) : Except String Matcher :=
  if st.wildcard.isSome then
    .error "any wildcard variant (with 2 fields) must come last in the enumeration"
  else
    match extract_method_name_from_attrs variant.attrs none with
    | .error e => .error e
    | .ok maybeMethodName =>
      match variant.fields with
      | [] =>
        match maybeMethodName with
        | none =>
          .error "unit variant is missing a cdp attribute to specify the name"
        | some methodName =>
          .ok ⟨st.arms ++ [.unitArm idx methodName], st.wildcard⟩
      | [params] =>
        let key :=
          match maybeMethodName with
          | some methodName => methodName
          | none => params.tyName
        .ok ⟨st.arms ++ [.payloadArm idx key params.tyDeser], st.wildcard⟩
      | [_, params] =>
        .ok ⟨st.arms, some (idx, params.tyDeser)⟩
      | _ :: _ :: _ :: _ =>
        .error "expected 0, 1, or 2 fields on the variant"

/-- The loop of `generate_cdp_deserialize_impl` over the declared variants. -/
def generate_impl_go (idx : Nat) (variants : List VariantDecl)
    (st : Matcher) : Except String Matcher :=
  match variants with
  | [] => .ok st
  | v :: rest =>
    match generate_cdp_deserialize_impl_arm idx v st with
    | .error e => .error e
    | .ok st' => generate_impl_go (idx + 1) rest st'

/-- `generate_cdp_deserialize_impl` (cdp-derive lines 40-116) restricted to
what reaches runtime: the compiled matcher, or the declaration-time error. -/
def generate_cdp_deserialize_impl (variants : List VariantDecl) :
    Except String Matcher :=
  generate_impl_go 0 variants ⟨[], none⟩

/-- The runtime behaviour of the generated `deserialize_command` /
`deserialize_event` function: a `match` on the name over the keyed arms in
order, then the wildcard arm if one was declared, else `Err(params)` returning
the parameters unconsumed. -/
def Matcher.dispatch (m : Matcher) (name : String) (params : Json) :
    Except Json (Option DispatchedValue) :=
  match m.arms.find? (fun arm => arm.key = name) with
  | some arm => .ok (arm.run params)
  | none =>
    match m.wildcard with
    | some (i, d) => .ok ((d params).map (fun p => .wildcard i name p))
    | none => .error params

/-- The match key of a declared variant, following the words of the
specification: the explicit annotation if any, else (for a 1-field variant)
the protocol-name constant of the field's type.  `none` for the wildcard. -/
def variantSpecKey (v : VariantDecl) : Option String :=
  match (extract_method_name_from_attrs v.attrs none).toOption.bind id with
  | some methodName => some methodName
  | none =>
    match v.fields with
    | [f] => some f.tyName
    | _ => none

/-- Whether a declared variant is a wildcard (2 fields), following the
specification's wording. -/
def variantIsWildcard (v : VariantDecl) : Bool :=
  v.fields.length = 2

/-- What the specification says a selected variant produces. -/
def variantSpecRun (idx : Nat) (v : VariantDecl) (params : Json) :
    Option DispatchedValue :=
  match v.fields with
  | [] => (deserializeEmpty params).map fun _ => .unit idx
  | [f] => (f.tyDeser params).map (.payload idx)
  | _ => none

/-- First non-wildcard variant, in declaration order, whose match key equals
the incoming name. -/
def findFirstKeyed (idx : Nat) (variants : List VariantDecl) (name : String) :
    Option (Nat × VariantDecl) :=
  match variants with
  | [] => none
  | v :: rest =>
    if ¬ variantIsWildcard v ∧ variantSpecKey v = some name then some (idx, v)
    else findFirstKeyed (idx + 1) rest name

/-- First 2-field (wildcard) variant, with its declaration index and its
second field (the raw-parameters container). -/
def findWildcard (idx : Nat) (variants : List VariantDecl) :
    Option (Nat × FieldDecl) :=
  match variants with
  | [] => none
  | v :: rest =>
    match v.fields with
    | [_, f] => some (idx, f)
    | _ => findWildcard (idx + 1) rest

/-- Specification-side dispatch with the indices of the remaining variants
starting at `idx` (the induction-friendly form of `dispatchSpec`). -/
def dispatchSpecFrom (idx : Nat) (variants : List VariantDecl) (name : String)
    (params : Json) : Except Json (Option DispatchedValue) :=
  match findFirstKeyed idx variants name with
  | some (i, v) => .ok (variantSpecRun i v params)
  | none =>
    match findWildcard idx variants with
    | some (i, f) => .ok ((f.tyDeser params).map (fun p => .wildcard i name p))
    | none => .error params

/-- Specification-side dispatch, written from the claim's words: test the
variants' match keys by string equality in declaration order and select the
first match; if no keyed variant matches and a 2-field wildcard variant
exists, the wildcard is selected, its first field constructed from the given
name and its second field deserialized from the raw parameters; otherwise
return the original parameters unconsumed. -/
def dispatchSpec (variants : List VariantDecl) (name : String)
    (params : Json) : Except Json (Option DispatchedValue) :=
  dispatchSpecFrom 0 variants name params

/-! ## Schema model (`src/definition.rs`, crate `cdp-definition`)

`Item` (an array's element descriptor) is inlined into the `array`
constructor as its description plus element type.  Fields irrelevant to code
generation (`handlers`, `redirect`, `dependencies`) are kept for fidelity.
-/

mutual

inductive Type' where
  | reference (target : String)
  | boolean
  | integer
  | number
  | string
  | enum (values : List String)
  | array (itemDescription : Option String) (item : Type')
      (min_items max_items : Option Nat)
  | object (fields : List Field)
  | any

inductive Field where
  | mk (name : String) (description : Option String)
      (experimental deprecated optional : Bool) (ty : Type')

end

def Field.name : Field → String
  | .mk n _ _ _ _ _ => n

def Field.description : Field → Option String
  | .mk _ d _ _ _ _ => d

def Field.experimental : Field → Bool
  | .mk _ _ e _ _ _ => e

def Field.deprecated : Field → Bool
  | .mk _ _ _ d _ _ => d

def Field.optional : Field → Bool
  | .mk _ _ _ _ o _ => o

def Field.ty : Field → Type'
  | .mk _ _ _ _ _ t => t

/-- Whether a type is one of the shallow primitive shapes named by the
reachability claim: `Boolean`, `Integer`, `Number` or `Enum`. -/
def Type'.primitiveShallow : Type' → Bool
  | .boolean => true
  | .integer => true
  | .number => true
  | .enum _ => true
  | _ => false

structure TypeDef where
  name : String
  description : Option String
  experimental : Bool
  deprecated : Bool
  ty : Type'

structure Method where
  name : String
  description : Option String
  experimental : Bool
  deprecated : Bool
  handlers : List String
  parameters : List Field
  returns : List Field
  redirect : Option String

structure Domain where
  name : String
  description : Option String
  experimental : Bool
  deprecated : Bool
  dependencies : List String
  type_defs : List TypeDef
  commands : List Method
  events : List Method

/-! ## Name conversion (cdp/src/generate.rs lines 1003-1046)

`snake_case`/`pascal_case` delegate to the external `Inflector` crate after
`replace_unsafe_chars`; the crate splits a name into words at non-alphanumeric
separators and at lower-to-upper boundaries, then joins lowercased words with
underscores (snake) or concatenates capitalized words (pascal).
-/

/-- Word splitting: a new word starts after a non-alphanumeric separator or at
an uppercase letter following a non-uppercase character.  The first argument
accumulates the current word in reverse. -/
def splitWordsGo (cur : List Char) (cs : List Char) : List (List Char) :=
  match cs with
  | [] => if cur.isEmpty then [] else [cur.reverse]
  | c :: rest =>
    if ¬ c.isAlphanum then
      if cur.isEmpty then splitWordsGo [] rest
      else cur.reverse :: splitWordsGo [] rest
    else if c.isUpper ∧ ¬ cur.isEmpty ∧ ¬ (cur.headD 'a').isUpper then
      cur.reverse :: splitWordsGo [c] rest
    else splitWordsGo (c :: cur) rest

def splitWords (s : String) : List (List Char) := splitWordsGo [] s.data

def lowerWord (w : List Char) : List Char := w.map Char.toLower

def capitalizeWord (w : List Char) : List Char :=
  match w with
  | [] => []
  | c :: rest => c.toUpper :: rest.map Char.toLower

def joinUnderscore (ws : List (List Char)) : List Char :=
  match ws with
  | [] => []
  | [w] => w
  | w :: ws => w ++ '_' :: joinUnderscore ws

/-- Model of `Inflector::to_snake_case`. -/
def to_snake_case (s : String) : String :=
  String.mk (joinUnderscore ((splitWords s).map lowerWord))

/-- Model of `Inflector::to_pascal_case`. -/
def to_pascal_case (s : String) : String :=
  String.mk (((splitWords s).map capitalizeWord).flatten)

/-- `replace_unsafe_chars`: the regex `^-` replaced once with `Negative`. -/
def replace_unsafe_chars (s : String) : String :=
  match s.data with
  | '-' :: rest => String.mk ("Negative".data ++ rest)
  | _ => s

/-- `snake_case` with the two reserved-word substitutions. -/
def snake_case (s : String) : String :=
  let r := to_snake_case (replace_unsafe_chars s)
  if r = "type" then "ty"
  else if r = "override" then "overridden"
  else r

/-- `pascal_case`. -/
def pascal_case (s : String) : String :=
  to_pascal_case (to_snake_case (replace_unsafe_chars s))

/-- `fully_qualified_ident` (generate.rs lines 1068-1070). -/
def fully_qualified_ident (domain_snake_case item_ident : String) : String :=
  "::" ++ domain_snake_case ++ "::" ++ item_ident

/-! ## Reference resolution (`resolve_reference`, cdp/src/generate.rs lines
1048-1066)

The regex `^([[:alnum:]]+)\.([[:alnum:]]+)$` is modelled structurally: scan a
run of alphanumerics up to the first dot, then require the remainder to be a
non-empty alphanumeric run (which, being alphanumeric, contains no further
dot). -/

/-- Scan up to the first `.`; fail if a non-alphanumeric character other than
the dot appears first, or if no dot exists. -/
def scanAlnumUntilDot (cs : List Char) : Option (List Char × List Char) :=
  match cs with
  | [] => none
  | c :: rest =>
    if c = '.' then some ([], rest)
    else if c.isAlphanum then
      (scanAlnumUntilDot rest).map (fun p => (c :: p.1, p.2))
    else none

/-- The capture groups of `INTER_DOMAIN_RE` when the whole string matches. -/
def inter_domain_captures (s : String) : Option (String × String) :=
  match scanAlnumUntilDot s.data with
  | none => none
  | some (a, b) =>
    if a ≠ [] ∧ b ≠ [] ∧ b.all Char.isAlphanum then
      some (String.mk a, String.mk b)
    else none

/-- `resolve_reference`: a target matching `alnum+.alnum+` resolves in the
referenced domain's namespace, anything else in the referencing domain. -/
def resolve_reference (domain_snake_case target target_pascal_case : String) :
    String :=
  match inter_domain_captures target with
  | none => fully_qualified_ident domain_snake_case target_pascal_case
  | some (d, i) => fully_qualified_ident (snake_case d) (pascal_case i)

/-! ## Reachability analysis (`generate_uses_lifetime_set`, cdp/src/generate.rs
lines 120-260)

A graph node is `none` (the distinguished raw-string node) or `some fq` (the
fully-qualified identity of a named item); an edge `(src, tgt)` always targets
an item node.  The petgraph depth-first search from the string node is an
external-library call whose contract is "visit exactly the nodes reachable
from the start"; it is modelled by an executable saturation loop, proven below
to compute exactly the reachable set. -/

mutual

/-- `traverse_type`: the edges contributed by one type occurrence under the
enclosing item identity `parent_pascal_case`.  A `String` adds an edge from
the raw-string node to the enclosing item; a `Reference` whose pascal-cased
target differs from the enclosing identity adds an edge from the resolved
target to the enclosing item (a self-reference adds nothing); arrays and
nested objects recurse under the same enclosing identity; `Boolean`,
`Integer`, `Number`, `Any` and `Enum` contribute nothing. -/
def traverse_type (domain_snake_case parent_pascal_case : String) :
    Type' → List (Option String × String)
  | .string =>
    [(none, fully_qualified_ident domain_snake_case parent_pascal_case)]
  | .reference target =>
    let target_pascal_case := pascal_case target
    if target_pascal_case ≠ parent_pascal_case then
      [(some (resolve_reference domain_snake_case target target_pascal_case),
        fully_qualified_ident domain_snake_case parent_pascal_case)]
    else []
  | .array _ item _ _ => traverse_type domain_snake_case parent_pascal_case item
  | .object fields => traverse_fields domain_snake_case parent_pascal_case fields
  | .boolean => []
  | .integer => []
  | .number => []
  | .enum _ => []
  | .any => []

/-- `traverse_fields`: each field's type in order. -/
def traverse_fields (domain_snake_case parent_pascal_case : String) :
    List Field → List (Option String × String)
  | [] => []
  | .mk _ _ _ _ _ ty :: rest =>
    traverse_type domain_snake_case parent_pascal_case ty
      ++ traverse_fields domain_snake_case parent_pascal_case rest

end

/-- The traversal roots of one domain, in source order: every command and
event (its parameters chained with its returns, under the method's
pascal-cased identity), then every type definition.  A method's fields are
traversed exactly as the fields of an object type. -/
def domainEdges (d : Domain) : List (Option String × String) :=
  let domain_snake_case := snake_case d.name
  ((d.commands ++ d.events).flatMap fun m =>
    traverse_fields domain_snake_case (pascal_case m.name)
      (m.parameters ++ m.returns))
  ++ (d.type_defs.flatMap fun td =>
    traverse_type domain_snake_case (pascal_case td.name) td.ty)

def collectEdges (domains : List Domain) : List (Option String × String) :=
  domains.flatMap domainEdges

/-- One edge applied to an accumulated node set: add the target when the
source is present and the target is new. -/
def stepFun (acc : List (Option String)) (e : Option String × String) :
    List (Option String) :=
  if e.1 ∈ acc ∧ some e.2 ∉ acc then some e.2 :: acc else acc

/-- One saturation pass: add the target of every edge whose source is already
in the set. -/
def stepEdges (edges : List (Option String × String))
    (s : List (Option String)) : List (Option String) :=
  edges.foldl stepFun s

def iterStep (edges : List (Option String × String)) :
    Nat → List (Option String) → List (Option String)
  | 0, s => s
  | n + 1, s => iterStep edges n (stepEdges edges s)

/-- The set of nodes reachable from the raw-string node (`none`), computed by
saturation; `edges.length + 1` passes always reach the fixed point. -/
def reachClosure (edges : List (Option String × String)) :
    List (Option String) :=
  iterStep edges (edges.length + 1) [none]

/-- `generate_uses_lifetime_set`: the fully-qualified identities of the items
reachable from the raw-string node (the string node itself, whose weight is
`None`, is not collected). -/
def generate_uses_lifetime_set (domains : List Domain) : List String :=
  (reachClosure (collectEdges domains)).filterMap id

/-- One-step edge relation of the reference graph, as a relation on nodes:
order- and multiplicity-independent by construction. -/
def EdgeStep (edges : List (Option String × String))
    (a b : Option String) : Prop :=
  ∃ t, b = some t ∧ (a, t) ∈ edges

/-! ## Deprecation metadata (`DeprecationStatus`, cdp/src/generate.rs lines
1103-1174) -/

inductive DeprecationStatus where
  | NotDeprecated
  | Deprecated
  | DeprecatedWithWarning (warning : String)
  | DeprecatedWithWarningFromParent (warning : String)
  deriving Repr, DecidableEq

/-- `escape_for_markdown`: each of `*`, `[`, `]`, `(`, `)` gains a leading
backslash (`MARKDOWN_HAZARD_RE` replaced by `\$0`). -/
def escape_for_markdown (s : String) : String :=
  String.mk (s.data.flatMap fun c =>
    if c = '*' ∨ c = '[' ∨ c = ']' ∨ c = '(' ∨ c = ')' then ['\\', c] else [c])

def listStartsWith (hay lead : List Char) : Bool :=
  match hay, lead with
  | _, [] => true
  | [], _ :: _ => false
  | h :: hs, n :: ns => h = n && listStartsWith hs ns

def listHasSubstr (hay needle : List Char) : Bool :=
  match hay with
  | [] => needle.isEmpty
  | _ :: t => listStartsWith hay needle || listHasSubstr t needle

/-- `DEPRECATION_WARNING_RE` (`(?i)deprecat`) as a match test. -/
def deprecation_warning_is_match (s : String) : Bool :=
  listHasSubstr (s.data.map Char.toLower) "deprecat".data

/-- `DEPRECATION_PREFIX_RE` (`^Deprecated, `) replaced once by the empty
string: strip the leading `Deprecated, ` if present. -/
def strip_deprecated_lead (s : String) : String :=
  let lead := "Deprecated, ".data
  if listStartsWith s.data lead then String.mk (s.data.drop lead.length) else s

/-- The warning-extraction heuristic inside `DeprecationStatus::new`: the
description must mention "deprecat" (case-insensitively) and not be the bare
literal `Deprecated.`; the retained text drops a leading `Deprecated, ` and is
markdown-escaped. -/
def extract_deprecation_warning (description : Option String) : Option String :=
  description.bind fun desc =>
    if desc = "Deprecated." ∨ deprecation_warning_is_match desc = false then none
    else some (escape_for_markdown (strip_deprecated_lead desc))

/-- `DeprecationStatus::new` (generate.rs lines 1112-1136). -/
def DeprecationStatus.new (deprecated : Bool) (description : Option String) :
    DeprecationStatus :=
  if ¬ deprecated then .NotDeprecated
  else
    match extract_deprecation_warning description with
    | none => .Deprecated
    | some warning => .DeprecatedWithWarning warning

/-- `DeprecationStatus::is_deprecated`. -/
def DeprecationStatus.is_deprecated : DeprecationStatus → Bool
  | .NotDeprecated => false
  | _ => true

/-- `DeprecationStatus::has_own_warning`. -/
def DeprecationStatus.has_own_warning : DeprecationStatus → Bool
  | .DeprecatedWithWarning _ => true
  | _ => false

/-- `DeprecationStatus::warning`. -/
def DeprecationStatus.warning : DeprecationStatus → Option String
  | .DeprecatedWithWarning w => some w
  | .DeprecatedWithWarningFromParent w => some w
  | _ => none

/-- `DeprecationStatus::add_parent` (generate.rs lines 1162-1173): returns
`self` unchanged when the parent is not deprecated or `self` carries its own
extracted warning; otherwise the result is `Deprecated`, or
`DeprecatedWithWarningFromParent` with the parent's warning text. -/
def DeprecationStatus.add_parent (self : DeprecationStatus)
    (parent : DeprecationStatus) : DeprecationStatus :=
  if ¬ parent.is_deprecated ∨ self.has_own_warning then self
  else
    match parent.warning with
    | none => .Deprecated
    | some warning => .DeprecatedWithWarningFromParent warning

/-- The effective deprecation status `generate_type_def` computes for a type
definition (generate.rs lines 362-363), with the domain's status as computed
in `generate_domain` (line 280). -/
def generate_type_def_status (domain : Domain) (td : TypeDef) :
    DeprecationStatus :=
  (DeprecationStatus.new td.deprecated td.description).add_parent
    (DeprecationStatus.new domain.deprecated domain.description)

/-- The effective deprecation status `generate_method` computes for a command
or event (generate.rs lines 654-655). -/
def generate_method_status (domain : Domain) (m : Method) :
    DeprecationStatus :=
  (DeprecationStatus.new m.deprecated m.description).add_parent
    (DeprecationStatus.new domain.deprecated domain.description)

/-- The deprecation status `generate_field` computes for a field's own
attributes (generate.rs line 878): built from the field alone — the enclosing
`parent_deprecation_status` argument is not consulted for it. -/
def generate_field_status (field : Field) : DeprecationStatus :=
  DeprecationStatus.new field.deprecated field.description

/-- The `deprecated` attribute emitted by `generate_meta_attrs` (generate.rs
lines 945-952): `none` = no attribute, `some none` = bare `#[deprecated]`,
`some (some w)` = `#[deprecated(note = w)]`. -/
def generate_deprecated_attr (ds : DeprecationStatus) : Option (Option String) :=
  if ds.is_deprecated then some ds.warning else none

/-! ## Helper lemmas -/

theorem enumFirstMatch_eq_none_iff (vs : List String) (s : String) :
    enumFirstMatch vs s = none ↔ s ∉ vs := by
  induction vs with
  | nil => simp [enumFirstMatch]
  | cons v rest ih =>
    by_cases h : v = s
    · simp [enumFirstMatch, h]
    · simp [enumFirstMatch, h, ih, Ne.symm h]

theorem enumFirstMatch_some_getD (vs : List String) (s : String) (i : Nat)
    (h : enumFirstMatch vs s = some i) : vs.getD i "" = s := by
  induction vs generalizing i with
  | nil => simp [enumFirstMatch] at h
  | cons v rest ih =>
    by_cases hv : v = s
    · simp [enumFirstMatch, hv] at h
      subst h
      simpa using hv
    · simp [enumFirstMatch, hv] at h
      obtain ⟨j, hj, rfl⟩ := h
      simpa using ih j hj

/-! ## Claim theorems -/

/-- C3: `JsonCdpIncoming::parse` applies its checks in order, each failure
terminating with exactly one error: invalid JSON gives `ParseError` with no
id; a non-object top level gives `InvalidRequest` with no id; a missing (or
non-integer) `id` gives `InvalidRequest` with id unknown; a missing (or
non-string) `method` gives `InvalidRequest` carrying the parsed id; otherwise
parsing succeeds, using `params` verbatim when present and an object and the
empty object otherwise — a non-object `params` is never an error. -/
theorem incoming_parse_checks_in_order (v : Json)
    (fields : List (String × Json)) (id : Nat) (m : String) :
    (JsonCdpIncoming.parse none = .error (JsonCdpError.invalid_json, none)) ∧
    ((∀ fs, v ≠ .obj fs) →
      JsonCdpIncoming.parse (some v) =
        .error (JsonCdpError.must_be_object, none)) ∧
    ((mapGet fields "id").bind asU64 = none →
      JsonCdpIncoming.parse (some (.obj fields)) =
        .error (JsonCdpError.must_have_id, none)) ∧
    ((mapGet fields "id").bind asU64 = some id →
      (∀ s, (mapRemove fields "method").1 ≠ some (.str s)) →
      JsonCdpIncoming.parse (some (.obj fields)) =
        .error (JsonCdpError.must_have_method, some id)) ∧
    ((mapGet fields "id").bind asU64 = some id →
      (mapRemove fields "method").1 = some (.str m) →
      ∀ p, (mapRemove (mapRemove fields "method").2 "params").1 = some (.obj p) →
        JsonCdpIncoming.parse (some (.obj fields)) = .ok ⟨id, m, p⟩) ∧
    ((mapGet fields "id").bind asU64 = some id →
      (mapRemove fields "method").1 = some (.str m) →
      (∀ p, (mapRemove (mapRemove fields "method").2 "params").1 ≠
        some (.obj p)) →
      JsonCdpIncoming.parse (some (.obj fields)) = .ok ⟨id, m, []⟩) := by
  refine ⟨rfl, ?_, ?_, ?_, ?_, ?_⟩
  · intro h
    cases v with
    | obj fs => exact absurd rfl (h fs)
    | null => rfl
    | bool b => rfl
    | num n => rfl
    | str s => rfl
    | arr xs => rfl
  · intro hid
    simp [JsonCdpIncoming.parse, hid]
  · intro hid hm
    rcases hmr : mapRemove fields "method" with ⟨mv, rest⟩
    rw [hmr] at hm
    simp only at hm
    simp only [JsonCdpIncoming.parse, hid, hmr]
  · intro hid hm p hp
    rcases hmr : mapRemove fields "method" with ⟨mv, rest⟩
    rw [hmr] at hm hp
    simp only at hm hp
    rcases hpr : mapRemove rest "params" with ⟨pv, rest'⟩
    rw [hpr] at hp
    simp only at hp
    simp only [JsonCdpIncoming.parse, hid, hmr, hm, hpr, hp]
  · intro hid hm hp
    rcases hmr : mapRemove fields "method" with ⟨mv, rest⟩
    rw [hmr] at hm hp
    simp only at hm hp
    rcases hpr : mapRemove rest "params" with ⟨pv, rest'⟩
    rw [hpr] at hp
    simp only at hp
    simp only [JsonCdpIncoming.parse, hid, hmr, hm, hpr]

/-- Witness for `incoming_parse_checks_in_order`, at the specification's own
examples: a well-formed message with no `params`, the same message with the
non-object `params` value `7`, and the empty object `\x7b\x7d`. -/
theorem incoming_parse_checks_in_order_witness :
    (JsonCdpIncoming.parse
        (some (.obj [("id", .num 0), ("method", .str "Page.enable")])) =
      .ok ⟨0, "Page.enable", []⟩) ∧
    (JsonCdpIncoming.parse
        (some (.obj [("id", .num 0), ("method", .str "Page.enable"),
          ("params", .num 7)])) =
      .ok ⟨0, "Page.enable", []⟩) ∧
    (JsonCdpIncoming.parse (some (.obj [])) =
      .error (JsonCdpError.must_have_id, none)) ∧
    (JsonCdpIncoming.parse (some (.str "hello")) =
      .error (JsonCdpError.must_be_object, none)) := by
  refine ⟨?_, ?_, ?_, ?_⟩
  · exact (incoming_parse_checks_in_order (.null)
      [("id", .num 0), ("method", .str "Page.enable")] 0 "Page.enable").2.2.2.2.2
      (by rfl) (by rfl) (by intro p h; simp [mapRemove] at h)
  · exact (incoming_parse_checks_in_order (.null)
      [("id", .num 0), ("method", .str "Page.enable"), ("params", .num 7)] 0
      "Page.enable").2.2.2.2.2 (by rfl) (by rfl)
      (by intro p h; simp [mapRemove] at h)
  · exact (incoming_parse_checks_in_order (.null) [] 0 "").2.2.1 (by rfl)
  · exact (incoming_parse_checks_in_order (.str "hello") [] 0 "").2.1
      (by intro fs h; cases h)

/-- C6: for a generated string-keyed enum with declared wire strings `vs`,
formatting after parsing is the identity on every member of `vs`, and parsing
any other string fails with the structured error whose `expected` field is the
full declared list and whose `actual` field is the input. -/
theorem enum_roundtrip_and_error (vs : List String) (s : String) :
    (s ∈ vs → ∃ i, enum_from_str vs s = .ok i ∧ enum_to_str vs i = s) ∧
    (s ∉ vs → enum_from_str vs s = .error ⟨vs, s⟩) := by
  constructor
  · intro hs
    have h : enumFirstMatch vs s ≠ none := fun hnone =>
      absurd hs ((enumFirstMatch_eq_none_iff vs s).mp hnone)
    obtain ⟨i, hi⟩ := Option.ne_none_iff_exists'.mp h
    refine ⟨i, ?_, ?_⟩
    · simp [enum_from_str, hi]
    · exact enumFirstMatch_some_getD vs s i hi
  · intro hs
    have h := (enumFirstMatch_eq_none_iff vs s).mpr hs
    simp [enum_from_str, h]

/-- Witness for `enum_roundtrip_and_error` on the declared list
`["allow", "deny"]`: round trip at `"deny"`, structured error at `"block"`. -/
theorem enum_roundtrip_and_error_witness :
    (∃ i, enum_from_str ["allow", "deny"] "deny" = .ok i ∧
      enum_to_str ["allow", "deny"] i = "deny") ∧
    enum_from_str ["allow", "deny"] "block" =
      .error ⟨["allow", "deny"], "block"⟩ := by
  constructor
  · exact (enum_roundtrip_and_error ["allow", "deny"] "deny").1 (by decide)
  · exact (enum_roundtrip_and_error ["allow", "deny"] "block").2 (by decide)

/-- C7: deserializing the JSON object with code `-32601` and message
`'Foo.bar' wasn't found` yields exactly the error value with kind
`MethodNotFound` and that message; converting any integer to
`JsonCdpErrorKind` and back is the identity; the six named codes map to the
six named kinds, and every other integer passes through `Other`. -/
theorem error_code_table_roundtrip :
    (deserializeJsonCdpError (.obj [("code", .num (-32601)),
        ("message", .str "\x27Foo.bar\x27 wasn\x27t found")]) =
      some ⟨.MethodNotFound, "\x27Foo.bar\x27 wasn\x27t found", none⟩) ∧
    (∀ c : Int, codeFromKind (kindFromCode c) = c) ∧
    (kindFromCode (-32700) = .ParseError) ∧
    (kindFromCode (-32600) = .InvalidRequest) ∧
    (kindFromCode (-32601) = .MethodNotFound) ∧
    (kindFromCode (-32602) = .InvalidParams) ∧
    (kindFromCode (-32603) = .InternalError) ∧
    (kindFromCode (-32000) = .ServerError) ∧
    (∀ c : Int, c ≠ -32700 → c ≠ -32600 → c ≠ -32601 → c ≠ -32602 →
      c ≠ -32603 → c ≠ -32000 →
      kindFromCode c = .Other c ∧ codeFromKind (.Other c) = c) := by
  refine ⟨rfl, ?_, by decide, by decide, by decide, by decide, by decide,
    by decide, ?_⟩
  · intro c
    simp only [kindFromCode]
    split_ifs with h₁ h₂ h₃ h₄ h₅ h₆ <;> simp_all [codeFromKind]
  · intro c h₁ h₂ h₃ h₄ h₅ h₆
    exact ⟨by simp [kindFromCode, h₁, h₂, h₃, h₄, h₅, h₆], rfl⟩

/-- Witness for `error_code_table_roundtrip` at the unnamed code `7`. -/
theorem error_code_table_roundtrip_witness :
    kindFromCode 7 = .Other 7 ∧ codeFromKind (.Other 7) = 7 :=
  error_code_table_roundtrip.2.2.2.2.2.2.2.2 7 (by decide) (by decide)
    (by decide) (by decide) (by decide) (by decide)

/-- C4 counterexample: a type definition that is not marked deprecated, inside
a deprecated domain, receives effective status `Deprecated` (not
`NotDeprecated`) and is emitted with a bare `#[deprecated]` attribute —
`add_parent` propagates a deprecated parent onto a non-deprecated child. -/
theorem type_def_in_deprecated_domain_counterexample :
    generate_type_def_status
        ⟨"Console", none, false, true, [], [], [], []⟩
        ⟨"Thing", none, false, false, Type'.boolean⟩ = .Deprecated ∧
    DeprecationStatus.Deprecated ≠ DeprecationStatus.NotDeprecated ∧
    generate_deprecated_attr
        (generate_type_def_status
          ⟨"Console", none, false, true, [], [], [], []⟩
          ⟨"Thing", none, false, false, Type'.boolean⟩) = some none :=
  ⟨rfl, by decide, rfl⟩

/-- C4 amended: a node not marked deprecated keeps status `NotDeprecated`
only when its parent is itself not deprecated; a deprecated parent propagates,
giving the child `Deprecated` (parent without extracted text) or
`DeprecatedWithWarningFromParent` with the parent's text, and such a child is
emitted with a `deprecated` attribute. -/
theorem not_deprecated_node_inherits_parent (description : Option String)
    (parent : DeprecationStatus) (domain : Domain) (td : TypeDef) :
    (parent.is_deprecated = false →
      (DeprecationStatus.new false description).add_parent parent =
        .NotDeprecated) ∧
    (parent.is_deprecated = true → parent.warning = none →
      (DeprecationStatus.new false description).add_parent parent =
        .Deprecated) ∧
    (∀ w, parent.warning = some w →
      (DeprecationStatus.new false description).add_parent parent =
        .DeprecatedWithWarningFromParent w) ∧
    (domain.deprecated = true → td.deprecated = false →
      (generate_type_def_status domain td).is_deprecated = true ∧
      generate_deprecated_attr (generate_type_def_status domain td) ≠ none) := by
  have hnew : DeprecationStatus.new false description = .NotDeprecated := by
    simp [DeprecationStatus.new]
  refine ⟨?_, ?_, ?_, ?_⟩
  · intro hp
    cases parent <;>
      simp_all [DeprecationStatus.add_parent, DeprecationStatus.is_deprecated,
        DeprecationStatus.has_own_warning]
  · intro hp hw
    cases parent <;>
      simp_all [DeprecationStatus.add_parent, DeprecationStatus.is_deprecated,
        DeprecationStatus.has_own_warning, DeprecationStatus.warning]
  · intro w hw
    cases parent <;>
      simp_all [DeprecationStatus.add_parent, DeprecationStatus.is_deprecated,
        DeprecationStatus.has_own_warning, DeprecationStatus.warning]
  · intro hd htd
    have hself : DeprecationStatus.new td.deprecated td.description =
        .NotDeprecated := by
      simp [htd, DeprecationStatus.new]
    have hpdep :
        (DeprecationStatus.new domain.deprecated domain.description).is_deprecated
          = true := by
      simp only [hd, DeprecationStatus.new]
      rcases extract_deprecation_warning domain.description with _ | w <;>
        simp [DeprecationStatus.is_deprecated]
    unfold generate_type_def_status
    rw [hself]
    rcases hps : DeprecationStatus.new domain.deprecated domain.description with
      _ | _ | w | w <;> rw [hps] at hpdep <;>
      simp_all [DeprecationStatus.add_parent, DeprecationStatus.is_deprecated,
        DeprecationStatus.has_own_warning, DeprecationStatus.warning,
        generate_deprecated_attr]

/-- Witness for `not_deprecated_node_inherits_parent`: a non-deprecated
parent leaves the node `NotDeprecated`; a deprecated parent carrying the
extracted text `old` hands it down; a non-deprecated type definition inside a
deprecated domain gets a `deprecated` attribute. -/
theorem not_deprecated_node_inherits_parent_witness :
    ((DeprecationStatus.new false (some "desc")).add_parent .NotDeprecated =
      .NotDeprecated) ∧
    ((DeprecationStatus.new false (some "desc")).add_parent
        (.DeprecatedWithWarning "old") =
      .DeprecatedWithWarningFromParent "old") ∧
    ((generate_type_def_status ⟨"Console", none, false, true, [], [], [], []⟩
        ⟨"Thing", none, false, false, Type'.boolean⟩).is_deprecated = true) := by
  refine ⟨?_, ?_, ?_⟩
  · exact (not_deprecated_node_inherits_parent (some "desc") .NotDeprecated
      ⟨"Console", none, false, true, [], [], [], []⟩
      ⟨"Thing", none, false, false, Type'.boolean⟩).1 (by decide)
  · exact (not_deprecated_node_inherits_parent (some "desc")
      (.DeprecatedWithWarning "old")
      ⟨"Console", none, false, true, [], [], [], []⟩
      ⟨"Thing", none, false, false, Type'.boolean⟩).2.2.1 "old" (by decide)
  · exact ((not_deprecated_node_inherits_parent (some "desc") .NotDeprecated
      ⟨"Console", none, false, true, [], [], [], []⟩
      ⟨"Thing", none, false, false, Type'.boolean⟩).2.2.2 (by decide)
      (by decide)).1

/-- C5 counterexample: a deprecated field with no description of its own,
inside an ancestor whose status carries the extracted text
`use somethingElse instead.`, still gets the bare `Deprecated` status — the
field path (`generate_field`) never consults the ancestor status, so the text
is not inherited and the emitted attribute is a bare `#[deprecated]`. -/
theorem deprecated_field_no_inherited_text_counterexample :
    (DeprecationStatus.new true (some "Deprecated, use somethingElse instead.")
      = .DeprecatedWithWarning "use somethingElse instead.") ∧
    generate_field_status (.mk "f" none false true false Type'.boolean) =
      .Deprecated ∧
    DeprecationStatus.Deprecated ≠
      DeprecationStatus.DeprecatedWithWarningFromParent
        "use somethingElse instead." ∧
    generate_deprecated_attr
        (generate_field_status (.mk "f" none false true false Type'.boolean)) =
      some none := by
  refine ⟨by decide, rfl, by decide, rfl⟩

/-- C5 amended: a field marked deprecated whose own description yields no
extractable warning text always gets the bare deprecated-without-text status,
and one whose description yields text keeps that text; the field's status is
computed from the field alone and never inherits an ancestor's text
(`add_parent` is applied only at the domain-to-type/method level). -/
theorem deprecated_field_status_from_field_alone (field : Field) :
    (field.deprecated = true →
      extract_deprecation_warning field.description = none →
      generate_field_status field = .Deprecated ∧
      generate_deprecated_attr (generate_field_status field) = some none) ∧
    (∀ w, field.deprecated = true →
      extract_deprecation_warning field.description = some w →
      generate_field_status field = .DeprecatedWithWarning w) := by
  constructor
  · intro hd hw
    have : generate_field_status field = .Deprecated := by
      rcases field with ⟨n, d, e, dep, o, t⟩
      simp only [Field.deprecated] at hd
      simp only [Field.description] at hw
      simp [generate_field_status, DeprecationStatus.new, Field.deprecated,
        Field.description, hd, hw]
    exact ⟨this, by rw [this]; rfl⟩
  · intro w hd hw
    rcases field with ⟨n, d, e, dep, o, t⟩
    simp only [Field.deprecated] at hd
    simp only [Field.description] at hw
    simp [generate_field_status, DeprecationStatus.new, Field.deprecated,
      Field.description, hd, hw]

/-- Witness for `deprecated_field_status_from_field_alone`: a deprecated field
with no description at all gets the bare status; one whose description reads
`Deprecated, gone.` keeps the stripped text `gone.`. -/
theorem deprecated_field_status_from_field_alone_witness :
    (generate_field_status (.mk "f" none false true false Type'.boolean) =
        .Deprecated ∧
      generate_deprecated_attr
        (generate_field_status (.mk "f" none false true false Type'.boolean)) =
        some none) ∧
    generate_field_status
        (.mk "g" (some "Deprecated, gone.") false true false Type'.boolean) =
      .DeprecatedWithWarning "gone." := by
  constructor
  · exact (deprecated_field_status_from_field_alone
      (.mk "f" none false true false Type'.boolean)).1 (by decide) (by decide)
  · exact (deprecated_field_status_from_field_alone
      (.mk "g" (some "Deprecated, gone.") false true false Type'.boolean)).2
      "gone." (by decide) (by decide)

/-- C10: the `Empty` sentinel deserializes from any JSON object whatever keys
it contains, and consequently a 0-field dispatch variant whose declared name
equals the incoming method name accepts arbitrary object parameters. -/
theorem empty_accepts_any_object (fields : List (String × Json))
    (key : String) :
    deserializeEmpty (.obj fields) = some () ∧
    generate_cdp_deserialize_impl [⟨[.nameValueStr "cdp" key], []⟩] =
      .ok ⟨[.unitArm 0 key], none⟩ ∧
    Matcher.dispatch ⟨[.unitArm 0 key], none⟩ key (.obj fields) =
      .ok (some (.unit 0)) := by
  refine ⟨rfl, rfl, ?_⟩
  simp [Matcher.dispatch, List.find?, ArmDesc.key, ArmDesc.run,
    deserializeEmpty]

theorem arm_err_of_wildcard_some (idx : Nat) (v : VariantDecl) (st : Matcher)
    (h : st.wildcard.isSome = true) :
    generate_cdp_deserialize_impl_arm idx v st =
      .error "any wildcard variant (with 2 fields) must come last in the enumeration" := by
  simp [generate_cdp_deserialize_impl_arm, h]

theorem go_err_of_wildcard_some (idx : Nat) (v : VariantDecl)
    (rest : List VariantDecl) (st : Matcher) (h : st.wildcard.isSome = true) :
    ∃ e, generate_impl_go idx (v :: rest) st = .error e := by
  refine ⟨"any wildcard variant (with 2 fields) must come last in the enumeration", ?_⟩
  simp [generate_impl_go, arm_err_of_wildcard_some idx v st h]

theorem go_err_of_long_variant (vs : List VariantDecl) :
    ∀ (idx : Nat) (st : Matcher), (∃ v ∈ vs, 3 ≤ v.fields.length) →
    ∃ e, generate_impl_go idx vs st = .error e := by
  induction vs with
  | nil => intro idx st h; simp at h
  | cons v rest ih =>
    intro idx st h
    obtain ⟨w, hw, hlen⟩ := h
    rcases List.mem_cons.mp hw with rfl | hw'
    · by_cases hwild : st.wildcard.isSome = true
      · exact go_err_of_wildcard_some idx w rest st hwild
      · rcases hE : extract_method_name_from_attrs w.attrs none with e | mn
        · exact ⟨e, by
            simp [generate_impl_go, generate_cdp_deserialize_impl_arm, hwild, hE]⟩
        · obtain ⟨a, b, c, fs, hf⟩ : ∃ a b c fs, w.fields = a :: b :: c :: fs := by
            rcases hfs : w.fields with _ | ⟨a, _ | ⟨b, _ | ⟨c, fs⟩⟩⟩ <;>
              rw [hfs] at hlen <;> simp at hlen
            exact ⟨a, b, c, fs, rfl⟩
          exact ⟨"expected 0, 1, or 2 fields on the variant", by
            simp [generate_impl_go, generate_cdp_deserialize_impl_arm, hwild, hE, hf]⟩
    · rcases hA : generate_cdp_deserialize_impl_arm idx v st with e | st'
      · exact ⟨e, by simp [generate_impl_go, hA]⟩
      · obtain ⟨e, he⟩ := ih (idx + 1) st' ⟨w, hw', hlen⟩
        exact ⟨e, by simp [generate_impl_go, hA, he]⟩

theorem go_err_of_unit_without_name (vs : List VariantDecl) :
    ∀ (idx : Nat) (st : Matcher),
    (∃ v ∈ vs, v.fields = [] ∧
      extract_method_name_from_attrs v.attrs none = .ok none) →
    ∃ e, generate_impl_go idx vs st = .error e := by
  induction vs with
  | nil => intro idx st h; simp at h
  | cons v rest ih =>
    intro idx st h
    obtain ⟨w, hw, hfields, hE⟩ := h
    rcases List.mem_cons.mp hw with rfl | hw'
    · by_cases hwild : st.wildcard.isSome = true
      · exact go_err_of_wildcard_some idx w rest st hwild
      · exact ⟨"unit variant is missing a cdp attribute to specify the name", by
          simp [generate_impl_go, generate_cdp_deserialize_impl_arm, hwild, hE,
            hfields]⟩
    · rcases hA : generate_cdp_deserialize_impl_arm idx v st with e | st'
      · exact ⟨e, by simp [generate_impl_go, hA]⟩
      · obtain ⟨e, he⟩ := ih (idx + 1) st' ⟨w, hw', hfields, hE⟩
        exact ⟨e, by simp [generate_impl_go, hA, he]⟩

theorem go_err_of_wildcard_not_last (pre : List VariantDecl) :
    ∀ (idx : Nat) (st : Matcher) (w : VariantDecl) (post : List VariantDecl),
    w.fields.length = 2 → post ≠ [] →
    ∃ e, generate_impl_go idx (pre ++ w :: post) st = .error e := by
  induction pre with
  | nil =>
    intro idx st w post hlen hpost
    by_cases hwild : st.wildcard.isSome = true
    · exact go_err_of_wildcard_some idx w post st hwild
    · rcases hE : extract_method_name_from_attrs w.attrs none with e | mn
      · exact ⟨e, by
          simp [generate_impl_go, generate_cdp_deserialize_impl_arm, hwild, hE]⟩
      · obtain ⟨a, b, hf⟩ : ∃ a b, w.fields = [a, b] := by
          rcases hfs : w.fields with _ | ⟨a, _ | ⟨b, _ | ⟨c, fs⟩⟩⟩ <;>
            rw [hfs] at hlen <;> simp at hlen
          exact ⟨a, b, rfl⟩
        rcases post with _ | ⟨p, ps⟩
        · exact absurd rfl hpost
        · exact ⟨"any wildcard variant (with 2 fields) must come last in the enumeration", by
            simp [generate_impl_go, generate_cdp_deserialize_impl_arm, hwild, hE,
              hf]⟩
  | cons q pre' ih =>
    intro idx st w post hlen hpost
    rcases hA : generate_cdp_deserialize_impl_arm idx q st with e | st'
    · exact ⟨e, by simp [generate_impl_go, hA]⟩
    · obtain ⟨e, he⟩ := ih (idx + 1) st' w post hlen hpost
      exact ⟨e, by simp [generate_impl_go, hA, he]⟩

/-- C8: the derive rejects, at declaration (expansion) time and before any
message is processed, an enum containing a variant with three or more fields,
a 0-field variant without an explicit `cdp` name annotation, or a 2-field
wildcard variant that is not the last declared variant (which covers a second
wildcard). -/
theorem derive_declaration_time_rejections (variants : List VariantDecl) :
    ((∃ v ∈ variants, 3 ≤ v.fields.length) →
      ∃ e, generate_cdp_deserialize_impl variants = .error e) ∧
    ((∃ v ∈ variants, v.fields = [] ∧
        extract_method_name_from_attrs v.attrs none = .ok none) →
      ∃ e, generate_cdp_deserialize_impl variants = .error e) ∧
    (∀ pre w post, variants = pre ++ w :: post → w.fields.length = 2 →
      post ≠ [] → ∃ e, generate_cdp_deserialize_impl variants = .error e) := by
  refine ⟨?_, ?_, ?_⟩
  · intro h
    exact go_err_of_long_variant variants 0 ⟨[], none⟩ h
  · intro h
    exact go_err_of_unit_without_name variants 0 ⟨[], none⟩ h
  · intro pre w post hsplit hlen hpost
    rw [show generate_cdp_deserialize_impl variants =
      generate_impl_go 0 variants ⟨[], none⟩ from rfl, hsplit]
    exact go_err_of_wildcard_not_last pre 0 ⟨[], none⟩ w post hlen hpost

/-- Witness for `derive_declaration_time_rejections`: an enum with a 3-field
variant, an enum with an unannotated 0-field variant, and an enum declaring a
wildcard before another variant are all rejected. -/
theorem derive_declaration_time_rejections_witness :
    (∃ e, generate_cdp_deserialize_impl
      [⟨[], [⟨none, "k", fun _ => none⟩, ⟨none, "k", fun _ => none⟩,
        ⟨none, "k", fun _ => none⟩]⟩] = .error e) ∧
    (∃ e, generate_cdp_deserialize_impl [⟨[], []⟩] = .error e) ∧
    (∃ e, generate_cdp_deserialize_impl
      [⟨[], [⟨none, "k", fun _ => none⟩, ⟨none, "k", fun _ => none⟩]⟩,
       ⟨[.nameValueStr "cdp" "X.a"], []⟩] = .error e) := by
  refine ⟨?_, ?_, ?_⟩
  · exact (derive_declaration_time_rejections _).1
      ⟨⟨[], [⟨none, "k", fun _ => none⟩, ⟨none, "k", fun _ => none⟩,
        ⟨none, "k", fun _ => none⟩]⟩, by simp, by simp⟩
  · exact (derive_declaration_time_rejections _).2.1 ⟨⟨[], []⟩, by simp, rfl, rfl⟩
  · exact (derive_declaration_time_rejections _).2.2 []
      ⟨[], [⟨none, "k", fun _ => none⟩, ⟨none, "k", fun _ => none⟩]⟩
      [⟨[.nameValueStr "cdp" "X.a"], []⟩] rfl rfl (by simp)

theorem arm_ok_arms (idx : Nat) (v : VariantDecl) (st st' : Matcher)
    (h : generate_cdp_deserialize_impl_arm idx v st = .ok st') :
    ∃ t, st'.arms = st.arms ++ t := by
  by_cases hw : st.wildcard.isSome = true
  · rw [arm_err_of_wildcard_some idx v st hw] at h
    cases h
  · simp only [generate_cdp_deserialize_impl_arm, hw, if_false,
      Bool.false_eq_true, reduceIte] at h
    rcases hE : extract_method_name_from_attrs v.attrs none with e | mn <;>
      rw [hE] at h
    · cases h
    · rcases hf : v.fields with _ | ⟨f1, _ | ⟨f2, _ | ⟨f3, fs⟩⟩⟩ <;> rw [hf] at h
      · rcases mn with _ | k
        · cases h
        · injection h with h'
          exact ⟨[.unitArm idx k], by rw [← h']⟩
      · rcases mn with _ | k
        · injection h with h'
          exact ⟨[.payloadArm idx f1.tyName f1.tyDeser], by rw [← h']⟩
        · injection h with h'
          exact ⟨[.payloadArm idx k f1.tyDeser], by rw [← h']⟩
      · injection h with h'
        exact ⟨[], by rw [← h']; simp⟩
      · cases h

theorem go_arms_extend (vs : List VariantDecl) :
    ∀ (idx : Nat) (st : Matcher) (m : Matcher),
    generate_impl_go idx vs st = .ok m → ∃ t, m.arms = st.arms ++ t := by
  induction vs with
  | nil =>
    intro idx st m h
    injection h with h'
    exact ⟨[], by rw [← h']; simp⟩
  | cons v rest ih =>
    intro idx st m h
    rcases hA : generate_cdp_deserialize_impl_arm idx v st with e | st'
    · rw [generate_impl_go, hA] at h; cases h
    · rw [generate_impl_go, hA] at h
      obtain ⟨t₀, ht₀⟩ := arm_ok_arms idx v st st' hA
      obtain ⟨t₁, ht₁⟩ := ih (idx + 1) st' m h
      exact ⟨t₀ ++ t₁, by rw [ht₁, ht₀, List.append_assoc]⟩

theorem findFirstKeyed_cons_skip (idx : Nat) (v : VariantDecl)
    (rest : List VariantDecl) (name : String)
    (h : ¬ (¬ variantIsWildcard v = true ∧ variantSpecKey v = some name)) :
    findFirstKeyed idx (v :: rest) name = findFirstKeyed (idx + 1) rest name := by
  rw [findFirstKeyed, if_neg h]

theorem findWildcard_cons_skip (idx : Nat) (v : VariantDecl)
    (rest : List VariantDecl) (h : ∀ a b, v.fields ≠ [a, b]) :
    findWildcard idx (v :: rest) = findWildcard (idx + 1) rest := by
  simp only [findWildcard]

/-- The compiled matcher dispatches exactly as the specification-side
first-match walk over the remaining variant list. -/
theorem go_ok_dispatch_eq (vs : List VariantDecl) :
    ∀ (idx : Nat) (arms : List ArmDesc) (m : Matcher),
    generate_impl_go idx vs ⟨arms, none⟩ = .ok m →
    ∀ (name : String) (params : Json), (∀ a ∈ arms, a.key ≠ name) →
    m.dispatch name params = dispatchSpecFrom idx vs name params := by
  induction vs with
  | nil =>
    intro idx arms m h name params harms
    injection h with h'
    subst h'
    have hfind : arms.find? (fun arm => arm.key = name) = none :=
      List.find?_eq_none.mpr fun a ha => by simp [harms a ha]
    simp [Matcher.dispatch, hfind, dispatchSpecFrom, findFirstKeyed, findWildcard]
  | cons v rest ih =>
    intro idx arms m h name params harms
    rcases hA : generate_cdp_deserialize_impl_arm idx v ⟨arms, none⟩ with e | st'
    · rw [generate_impl_go, hA] at h; cases h
    · rw [generate_impl_go, hA] at h
      replace h : generate_impl_go (idx + 1) rest st' = .ok m := h
      simp only [generate_cdp_deserialize_impl_arm, Option.isSome_none,
        Bool.false_eq_true, if_false, reduceIte] at hA
      rcases hE : extract_method_name_from_attrs v.attrs none with e | mn <;>
        rw [hE] at hA
      · cases hA
      · rcases hf : v.fields with _ | ⟨f1, _ | ⟨f2, _ | ⟨f3, fs⟩⟩⟩ <;> rw [hf] at hA
        · -- 0-field variant
          rcases mn with _ | k
          · cases hA
          · injection hA with hA'
            subst hA'
            replace h : generate_impl_go (idx + 1) rest
                ⟨arms ++ [ArmDesc.unitArm idx k], none⟩ = .ok m := h
            have hkey : variantSpecKey v = some k := by
              unfold variantSpecKey
              rw [hE]
              rfl
            by_cases hk : k = name
            · subst hk
              obtain ⟨t, ht⟩ := go_arms_extend rest (idx + 1) _ m h
              replace ht : m.arms = (arms ++ [ArmDesc.unitArm idx k]) ++ t := ht
              have hfindarms : arms.find? (fun arm => arm.key = k) = none :=
                List.find?_eq_none.mpr fun a ha => by simp [harms a ha]
              have hfind : m.arms.find? (fun arm => arm.key = k) =
                  some (.unitArm idx k) := by
                rw [ht, List.append_assoc, List.find?_append, hfindarms]
                simp [List.find?_cons, ArmDesc.key]
              have hlhs : m.dispatch k params =
                  .ok ((deserializeEmpty params).map fun _ => .unit idx) := by
                simp [Matcher.dispatch, hfind, ArmDesc.run]
              have hrhs : dispatchSpecFrom idx (v :: rest) k params =
                  .ok ((deserializeEmpty params).map fun _ => .unit idx) := by
                have hcond : (¬ variantIsWildcard v = true ∧
                    variantSpecKey v = some k) :=
                  ⟨by simp [variantIsWildcard, hf], hkey⟩
                simp only [dispatchSpecFrom, findFirstKeyed, if_pos hcond]
                simp [variantSpecRun, hf]
              rw [hlhs, hrhs]
            · have hrec := ih (idx + 1) (arms ++ [.unitArm idx k]) m h name params
                (by
                  intro a ha
                  rcases List.mem_append.mp ha with ha' | ha'
                  · exact harms a ha'
                  · simp at ha'
                    subst ha'
                    simpa [ArmDesc.key] using hk)
              have hskip : dispatchSpecFrom idx (v :: rest) name params =
                  dispatchSpecFrom (idx + 1) rest name params := by
                have h1 := findFirstKeyed_cons_skip idx v rest name
                  (by
                    rintro ⟨-, hkey'⟩
                    rw [hkey] at hkey'
                    exact hk (by injection hkey'))
                have h2 := findWildcard_cons_skip idx v rest (by simp [hf])
                simp only [dispatchSpecFrom, h1, h2]
              rw [hrec, hskip]
        · -- 1-field variant
          rcases mn with _ | k'
          · injection hA with hA'
            subst hA'
            replace h : generate_impl_go (idx + 1) rest
                ⟨arms ++ [ArmDesc.payloadArm idx f1.tyName f1.tyDeser], none⟩ =
                .ok m := h
            have hkey : variantSpecKey v = some f1.tyName := by
              unfold variantSpecKey
              rw [hE, hf]
              rfl
            by_cases hk : f1.tyName = name
            · subst hk
              obtain ⟨t, ht⟩ := go_arms_extend rest (idx + 1) _ m h
              replace ht : m.arms =
                  (arms ++ [ArmDesc.payloadArm idx f1.tyName f1.tyDeser]) ++ t := ht
              have hfindarms : arms.find? (fun arm => arm.key = f1.tyName) = none :=
                List.find?_eq_none.mpr fun a ha => by simp [harms a ha]
              have hfind : m.arms.find? (fun arm => arm.key = f1.tyName) =
                  some (.payloadArm idx f1.tyName f1.tyDeser) := by
                rw [ht, List.append_assoc, List.find?_append, hfindarms]
                simp [List.find?_cons, ArmDesc.key]
              have hlhs : m.dispatch f1.tyName params =
                  .ok ((f1.tyDeser params).map (.payload idx)) := by
                simp [Matcher.dispatch, hfind, ArmDesc.run]
              have hrhs : dispatchSpecFrom idx (v :: rest) f1.tyName params =
                  .ok ((f1.tyDeser params).map (.payload idx)) := by
                have hcond : (¬ variantIsWildcard v = true ∧
                    variantSpecKey v = some f1.tyName) :=
                  ⟨by simp [variantIsWildcard, hf], hkey⟩
                simp only [dispatchSpecFrom, findFirstKeyed, if_pos hcond]
                simp [variantSpecRun, hf]
              rw [hlhs, hrhs]
            · have hrec := ih (idx + 1)
                (arms ++ [.payloadArm idx f1.tyName f1.tyDeser]) m h name params
                (by
                  intro a ha
                  rcases List.mem_append.mp ha with ha' | ha'
                  · exact harms a ha'
                  · simp at ha'
                    subst ha'
                    simpa [ArmDesc.key] using hk)
              have hskip : dispatchSpecFrom idx (v :: rest) name params =
                  dispatchSpecFrom (idx + 1) rest name params := by
                have h1 := findFirstKeyed_cons_skip idx v rest name
                  (by
                    rintro ⟨-, hkey'⟩
                    rw [hkey] at hkey'
                    exact hk (by injection hkey'))
                have h2 := findWildcard_cons_skip idx v rest (by simp [hf])
                simp only [dispatchSpecFrom, h1, h2]
              rw [hrec, hskip]
          · injection hA with hA'
            subst hA'
            replace h : generate_impl_go (idx + 1) rest
                ⟨arms ++ [ArmDesc.payloadArm idx k' f1.tyDeser], none⟩ = .ok m := h
            have hkey : variantSpecKey v = some k' := by
              unfold variantSpecKey
              rw [hE]
              rfl
            by_cases hk : k' = name
            · subst hk
              obtain ⟨t, ht⟩ := go_arms_extend rest (idx + 1) _ m h
              replace ht : m.arms =
                  (arms ++ [ArmDesc.payloadArm idx k' f1.tyDeser]) ++ t := ht
              have hfindarms : arms.find? (fun arm => arm.key = k') = none :=
                List.find?_eq_none.mpr fun a ha => by simp [harms a ha]
              have hfind : m.arms.find? (fun arm => arm.key = k') =
                  some (.payloadArm idx k' f1.tyDeser) := by
                rw [ht, List.append_assoc, List.find?_append, hfindarms]
                simp [List.find?_cons, ArmDesc.key]
              have hlhs : m.dispatch k' params =
                  .ok ((f1.tyDeser params).map (.payload idx)) := by
                simp [Matcher.dispatch, hfind, ArmDesc.run]
              have hrhs : dispatchSpecFrom idx (v :: rest) k' params =
                  .ok ((f1.tyDeser params).map (.payload idx)) := by
                have hcond : (¬ variantIsWildcard v = true ∧
                    variantSpecKey v = some k') :=
                  ⟨by simp [variantIsWildcard, hf], hkey⟩
                simp only [dispatchSpecFrom, findFirstKeyed, if_pos hcond]
                simp [variantSpecRun, hf]
              rw [hlhs, hrhs]
            · have hrec := ih (idx + 1)
                (arms ++ [.payloadArm idx k' f1.tyDeser]) m h name params
                (by
                  intro a ha
                  rcases List.mem_append.mp ha with ha' | ha'
                  · exact harms a ha'
                  · simp at ha'
                    subst ha'
                    simpa [ArmDesc.key] using hk)
              have hskip : dispatchSpecFrom idx (v :: rest) name params =
                  dispatchSpecFrom (idx + 1) rest name params := by
                have h1 := findFirstKeyed_cons_skip idx v rest name
                  (by
                    rintro ⟨-, hkey'⟩
                    rw [hkey] at hkey'
                    exact hk (by injection hkey'))
                have h2 := findWildcard_cons_skip idx v rest (by simp [hf])
                simp only [dispatchSpecFrom, h1, h2]
              rw [hrec, hskip]
        · -- 2-field wildcard variant
          injection hA with hA'
          subst hA'
          replace h : generate_impl_go (idx + 1) rest
              ⟨arms, some (idx, f2.tyDeser)⟩ = .ok m := h
          rcases rest with _ | ⟨p, ps⟩
          · injection h with h'
            subst h'
            have hfindarms : arms.find? (fun arm => arm.key = name) = none :=
              List.find?_eq_none.mpr fun a ha => by simp [harms a ha]
            have hlhs : Matcher.dispatch ⟨arms, some (idx, f2.tyDeser)⟩ name
                params = .ok ((f2.tyDeser params).map fun p =>
                  .wildcard idx name p) := by
              simp [Matcher.dispatch, hfindarms]
            have hrhs : dispatchSpecFrom idx [v] name params =
                .ok ((f2.tyDeser params).map fun p => .wildcard idx name p) := by
              have hcond : ¬ (¬ variantIsWildcard v = true ∧
                  variantSpecKey v = some name) := by
                rintro ⟨hnw, -⟩
                exact hnw (by simp [variantIsWildcard, hf])
              rw [dispatchSpecFrom, findFirstKeyed_cons_skip idx v [] name hcond]
              simp only [findFirstKeyed]
              simp only [findWildcard, hf]
            rw [hlhs, hrhs]
          · obtain ⟨e, he⟩ := go_err_of_wildcard_some (idx + 1) p ps
              ⟨arms, some (idx, f2.tyDeser)⟩ rfl
            rw [he] at h
            cases h
        · cases hA


/-- C1: for every enum accepted by the derive, the generated matcher tests
the variants' match keys by string equality against the method name in
declaration order and selects the first match; if no keyed variant matches
and a 2-field wildcard exists the wildcard is always selected, its first
field built from the name and its second field deserialized from the raw
parameters (preserved exactly when that field deserializes as raw JSON); and
with no match and no wildcard the original parameters are returned unconsumed
as `Err(params)`. -/
theorem derive_dispatch_first_match (variants : List VariantDecl) (m : Matcher)
    (h : generate_cdp_deserialize_impl variants = .ok m) (name : String)
    (params : Json) :
    (m.dispatch name params = dispatchSpec variants name params) ∧
    (findFirstKeyed 0 variants name = none → findWildcard 0 variants = none →
      m.dispatch name params = .error params) ∧
    (∀ idx f, findFirstKeyed 0 variants name = none →
      findWildcard 0 variants = some (idx, f) →
      f.tyDeser = (fun j => some j) →
      m.dispatch name params = .ok (some (.wildcard idx name params))) := by
  have hmain := go_ok_dispatch_eq variants 0 [] m h name params (by simp)
  refine ⟨hmain, ?_, ?_⟩
  · intro hfk hwc
    rw [hmain]
    simp [dispatchSpec, dispatchSpecFrom, hfk, hwc]
  · intro idx f hfk hwc hdeser
    rw [hmain]
    simp [dispatchSpec, dispatchSpecFrom, hfk, hwc, hdeser]

/-- Witness for `derive_dispatch_first_match` on the specification's example
enum `[A("X.a"), B("X.b"), Wildcard]`: the name `X.a` selects `A` first-match;
the unmatched name `Y.z` selects the wildcard with the name and the raw
parameters preserved; and without a wildcard the unmatched name returns the
parameters unconsumed. -/
theorem derive_dispatch_first_match_witness :
    (Matcher.dispatch
        ⟨[.payloadArm 0 "X.a" (fun j => some j),
          .payloadArm 1 "X.b" (fun j => some j)],
          some (2, fun j => some j)⟩ "X.a" (.obj [("k", .str "v")]) =
      .ok (some (.payload 0 (.obj [("k", .str "v")])))) ∧
    (Matcher.dispatch
        ⟨[.payloadArm 0 "X.a" (fun j => some j),
          .payloadArm 1 "X.b" (fun j => some j)],
          some (2, fun j => some j)⟩ "Y.z" (.obj [("k", .str "v")]) =
      .ok (some (.wildcard 2 "Y.z" (.obj [("k", .str "v")])))) ∧
    (Matcher.dispatch
        ⟨[.payloadArm 0 "X.a" (fun j => some j),
          .payloadArm 1 "X.b" (fun j => some j)], none⟩ "Y.z"
        (.obj [("k", .str "v")]) =
      .error (.obj [("k", .str "v")])) := by
  refine ⟨?_, ?_, ?_⟩
  · exact (derive_dispatch_first_match
      [⟨[.nameValueStr "cdp" "X.a"], [⟨none, "", fun j => some j⟩]⟩,
       ⟨[.nameValueStr "cdp" "X.b"], [⟨none, "", fun j => some j⟩]⟩,
       ⟨[], [⟨none, "", fun j => some j⟩, ⟨none, "", fun j => some j⟩]⟩]
      _ rfl "X.a" (.obj [("k", .str "v")])).1.trans rfl
  · exact (derive_dispatch_first_match
      [⟨[.nameValueStr "cdp" "X.a"], [⟨none, "", fun j => some j⟩]⟩,
       ⟨[.nameValueStr "cdp" "X.b"], [⟨none, "", fun j => some j⟩]⟩,
       ⟨[], [⟨none, "", fun j => some j⟩, ⟨none, "", fun j => some j⟩]⟩]
      _ rfl "Y.z" (.obj [("k", .str "v")])).2.2 2 ⟨none, "", fun j => some j⟩
      rfl rfl rfl
  · exact (derive_dispatch_first_match
      [⟨[.nameValueStr "cdp" "X.a"], [⟨none, "", fun j => some j⟩]⟩,
       ⟨[.nameValueStr "cdp" "X.b"], [⟨none, "", fun j => some j⟩]⟩]
      _ rfl "Y.z" (.obj [("k", .str "v")])).2.1 rfl rfl

theorem stepFun_extend (acc : List (Option String))
    (e : Option String × String) : ∃ t, stepFun acc e = t ++ acc := by
  unfold stepFun
  split
  · exact ⟨[some e.2], rfl⟩
  · exact ⟨[], rfl⟩

theorem foldl_stepFun_extend (es : List (Option String × String)) :
    ∀ acc, ∃ t, es.foldl stepFun acc = t ++ acc := by
  induction es with
  | nil => intro acc; exact ⟨[], rfl⟩
  | cons e es ih =>
    intro acc
    obtain ⟨t₀, ht₀⟩ := stepFun_extend acc e
    obtain ⟨t₁, ht₁⟩ := ih (stepFun acc e)
    exact ⟨t₁ ++ t₀, by rw [List.foldl_cons, ht₁, ht₀, List.append_assoc]⟩

theorem subset_stepEdges (edges : List (Option String × String))
    (s : List (Option String)) : s ⊆ stepEdges edges s := by
  obtain ⟨t, ht⟩ := foldl_stepFun_extend edges s
  rw [stepEdges, ht]
  exact List.subset_append_right t s

theorem foldl_stepFun_sound (edges : List (Option String × String)) :
    ∀ (es : List (Option String × String)) (acc : List (Option String)),
    (∀ e ∈ es, e ∈ edges) →
    (∀ x ∈ acc, Relation.ReflTransGen (EdgeStep edges) none x) →
    ∀ x ∈ es.foldl stepFun acc, Relation.ReflTransGen (EdgeStep edges) none x := by
  intro es
  induction es with
  | nil => intro acc _ hacc x hx; exact hacc x hx
  | cons e es ih =>
    intro acc hes hacc x hx
    rw [List.foldl_cons] at hx
    refine ih (stepFun acc e) (fun e' he' => hes e' (List.mem_cons_of_mem _ he'))
      ?_ x hx
    intro y hy
    unfold stepFun at hy
    split at hy
    · rename_i hcond
      rcases List.mem_cons.mp hy with rfl | hy'
      · exact Relation.ReflTransGen.tail (hacc e.1 hcond.1)
          ⟨e.2, rfl, hes e (List.mem_cons_self e es)⟩
      · exact hacc y hy'
    · exact hacc y hy

theorem mem_foldl_stepFun_target :
    ∀ (es : List (Option String × String)) (acc : List (Option String))
    (e : Option String × String), e ∈ es → e.1 ∈ acc →
    some e.2 ∈ es.foldl stepFun acc := by
  intro es
  induction es with
  | nil => intro acc e he; simp at he
  | cons e' es ih =>
    intro acc e he hsrc
    rw [List.foldl_cons]
    rcases List.mem_cons.mp he with rfl | he'
    · have hmem : some e.2 ∈ stepFun acc e := by
        unfold stepFun
        split
        · exact List.mem_cons_self _ _
        · rename_i hcond
          rcases not_and_or.mp hcond with hc | hc

          · exact absurd hsrc hc
          · exact not_not.mp hc
      obtain ⟨t, ht⟩ := foldl_stepFun_extend es (stepFun acc e)
      rw [ht]
      exact List.mem_append_right t hmem
    · exact ih (stepFun acc e') e he'
        (by
          obtain ⟨t, ht⟩ := stepFun_extend acc e'
          rw [ht]
          exact List.mem_append_right t hsrc)

theorem stepEdges_fixpoint_closed (edges : List (Option String × String))
    (s : List (Option String)) (hfix : stepEdges edges s = s) :
    ∀ e ∈ edges, e.1 ∈ s → some e.2 ∈ s := by
  intro e he hsrc
  have hmem : some e.2 ∈ stepEdges edges s :=
    mem_foldl_stepFun_target edges s e he hsrc
  rw [hfix] at hmem
  exact hmem

theorem iterStep_stable (edges : List (Option String × String))
    (s : List (Option String)) (hfix : stepEdges edges s = s) :
    ∀ n, iterStep edges n s = s := by
  intro n
  induction n with
  | zero => rfl
  | succ n ih =>
    rw [iterStep, hfix]
    exact ih

theorem iterStep_succ_outer (edges : List (Option String × String)) :
    ∀ (n : Nat) (s : List (Option String)),
    iterStep edges (n + 1) s = stepEdges edges (iterStep edges n s) := by
  intro n
  induction n with
  | zero => intro s; rfl
  | succ n ih =>
    intro s
    have h1 : iterStep edges (n + 1 + 1) s =
        iterStep edges (n + 1) (stepEdges edges s) := rfl
    have h2 : iterStep edges (n + 1) s = iterStep edges n (stepEdges edges s) :=
      rfl
    rw [h1, ih (stepEdges edges s), h2]

theorem iterStep_add (edges : List (Option String × String)) :
    ∀ (a b : Nat) (s : List (Option String)),
    iterStep edges (a + b) s = iterStep edges a (iterStep edges b s) := by
  intro a b
  induction b generalizing a with
  | zero => intro s; rfl
  | succ b ih =>
    intro s
    have h1 : iterStep edges (a + (b + 1)) s =
        iterStep edges (a + b) (stepEdges edges s) := rfl
    have h2 : iterStep edges (b + 1) s = iterStep edges b (stepEdges edges s) :=
      rfl
    rw [h1, ih a (stepEdges edges s), h2]

theorem subset_iterStep (edges : List (Option String × String)) :
    ∀ (n : Nat) (s : List (Option String)), s ⊆ iterStep edges n s := by
  intro n
  induction n with
  | zero => intro s; exact fun x hx => hx
  | succ n ih =>
    intro s
    rw [iterStep_succ_outer]
    exact fun x hx => subset_stepEdges edges (iterStep edges n s) (ih s hx)

theorem foldl_stepFun_nodup :
    ∀ (es : List (Option String × String)) (acc : List (Option String)),
    acc.Nodup → (es.foldl stepFun acc).Nodup := by
  intro es
  induction es with
  | nil => intro acc h; exact h
  | cons e es ih =>
    intro acc h
    rw [List.foldl_cons]
    refine ih (stepFun acc e) ?_
    unfold stepFun
    split
    · rename_i hcond
      exact List.Nodup.cons hcond.2 h
    · exact h

theorem foldl_stepFun_universe (edges : List (Option String × String)) :
    ∀ (es : List (Option String × String)) (acc : List (Option String)),
    (∀ e ∈ es, e ∈ edges) →
    (∀ x ∈ acc, x ∈ none :: edges.map (fun e => some e.2)) →
    ∀ x ∈ es.foldl stepFun acc, x ∈ none :: edges.map (fun e => some e.2) := by
  intro es
  induction es with
  | nil => intro acc _ hacc x hx; exact hacc x hx
  | cons e es ih =>
    intro acc hes hacc x hx
    rw [List.foldl_cons] at hx
    refine ih (stepFun acc e) (fun e' he' => hes e' (List.mem_cons_of_mem _ he'))
      ?_ x hx
    intro y hy
    unfold stepFun at hy
    split at hy
    · rcases List.mem_cons.mp hy with rfl | hy'
      · exact List.mem_cons_of_mem _
          (List.mem_map.mpr ⟨e, hes e (List.mem_cons_self e es), rfl⟩)
      · exact hacc y hy'
    · exact hacc y hy

theorem iterStep_invariant (edges : List (Option String × String)) (n : Nat) :
    (iterStep edges n [none]).Nodup ∧
    ∀ x ∈ iterStep edges n [none], x ∈ none :: edges.map (fun e => some e.2) := by
  induction n with
  | zero =>
    refine ⟨List.nodup_singleton none, ?_⟩
    intro x hx
    rw [show iterStep edges 0 [none] = [none] from rfl] at hx
    rcases List.mem_singleton.mp hx with rfl
    exact List.mem_cons_self _ _
  | succ n ih =>
    rw [iterStep_succ_outer]
    exact ⟨foldl_stepFun_nodup edges _ ih.1,
      foldl_stepFun_universe edges edges _ (fun e he => he) ih.2⟩

theorem nodup_subset_length {α : Type} [DecidableEq α] (l u : List α)
    (hn : l.Nodup) (hs : ∀ x ∈ l, x ∈ u) : l.length ≤ u.length := by
  calc l.length = l.toFinset.card := (List.toFinset_card_of_nodup hn).symm
    _ ≤ u.toFinset.card := Finset.card_le_card
        (fun x hx => List.mem_toFinset.mpr (hs x (List.mem_toFinset.mp hx)))
    _ ≤ u.length := List.toFinset_card_le u

theorem stepEdges_ne_length (edges : List (Option String × String))
    (s : List (Option String)) (h : stepEdges edges s ≠ s) :
    s.length + 1 ≤ (stepEdges edges s).length := by
  obtain ⟨t, ht⟩ := foldl_stepFun_extend edges s
  have ht' : stepEdges edges s = t ++ s := ht
  rcases t with _ | ⟨a, t'⟩
  · rw [List.nil_append] at ht'
    exact absurd ht' h
  · rw [ht']
    simp [List.length_append]

theorem exists_iter_fixpoint (edges : List (Option String × String)) :
    ∃ i ≤ edges.length + 1,
      stepEdges edges (iterStep edges i [none]) = iterStep edges i [none] := by
  by_contra hc
  push_neg at hc
  have grow : ∀ n, n ≤ edges.length + 2 →
      1 + n ≤ (iterStep edges n [none]).length := by
    intro n
    induction n with
    | zero => intro _; simp [iterStep]
    | succ n ih =>
      intro hn
      have h1 := ih (by omega)
      have hne := hc n (by omega)
      rw [iterStep_succ_outer]
      have h2 := stepEdges_ne_length edges (iterStep edges n [none]) hne
      omega
  have hb : (iterStep edges (edges.length + 2) [none]).length ≤
      edges.length + 1 := by
    have hinv := iterStep_invariant edges (edges.length + 2)
    have := nodup_subset_length (iterStep edges (edges.length + 2) [none])
      (none :: edges.map (fun e => some e.2)) hinv.1 hinv.2
    simpa using this
  have := grow (edges.length + 2) (by omega)
  omega

theorem reachClosure_fixpoint (edges : List (Option String × String)) :
    stepEdges edges (reachClosure edges) = reachClosure edges := by
  obtain ⟨i, hi, hfix⟩ := exists_iter_fixpoint edges
  have heq : reachClosure edges = iterStep edges i [none] := by
    rw [reachClosure]
    have hsplit : edges.length + 1 = (edges.length + 1 - i) + i := by omega
    rw [hsplit, iterStep_add]
    exact iterStep_stable edges _ hfix _
  rw [heq]
  exact hfix

theorem none_mem_reachClosure (edges : List (Option String × String)) :
    none ∈ reachClosure edges :=
  subset_iterStep edges (edges.length + 1) [none] (List.mem_singleton.mpr rfl)

theorem reachClosure_sound (edges : List (Option String × String)) :
    ∀ x ∈ reachClosure edges, Relation.ReflTransGen (EdgeStep edges) none x := by
  have main : ∀ n x, x ∈ iterStep edges n [none] →
      Relation.ReflTransGen (EdgeStep edges) none x := by
    intro n
    induction n with
    | zero =>
      intro x hx
      rw [show iterStep edges 0 [none] = [none] from rfl] at hx
      rcases List.mem_singleton.mp hx with rfl
      exact Relation.ReflTransGen.refl
    | succ n ih =>
      intro x hx
      rw [iterStep_succ_outer] at hx
      exact foldl_stepFun_sound edges edges _ (fun e he => he) ih x hx
  exact main (edges.length + 1)

/-- The saturation set computed for the petgraph depth-first search contains
exactly the nodes reachable from the raw-string node. -/
theorem mem_reachClosure_iff (edges : List (Option String × String))
    (x : Option String) :
    x ∈ reachClosure edges ↔ Relation.ReflTransGen (EdgeStep edges) none x := by
  constructor
  · exact reachClosure_sound edges x
  · intro h
    induction h with
    | refl => exact none_mem_reachClosure edges
    | tail hab hbc ih =>
      obtain ⟨t, rfl, hmem⟩ := hbc
      exact stepEdges_fixpoint_closed edges _ (reachClosure_fixpoint edges)
        _ hmem ih

theorem mem_uses_lifetime_iff (domains : List Domain) (x : String) :
    x ∈ generate_uses_lifetime_set domains ↔
      some x ∈ reachClosure (collectEdges domains) := by
  rw [generate_uses_lifetime_set, List.mem_filterMap]
  constructor
  · rintro ⟨a, ha, rfl⟩
    exact ha
  · intro h
    exact ⟨some x, h, rfl⟩

theorem rtg_some_is_target (edges : List (Option String × String)) (x : String)
    (h : Relation.ReflTransGen (EdgeStep edges) none (some x)) :
    ∃ a, (a, x) ∈ edges := by
  rcases Relation.ReflTransGen.cases_tail h with heq | ⟨c, _, hstep⟩
  · cases heq
  · obtain ⟨t, ht, hmem⟩ := hstep
    injection ht with ht'
    subst ht'
    exact ⟨c, hmem⟩

mutual

theorem traverse_type_target (d p : String) :
    ∀ (ty : Type') (e : Option String × String), e ∈ traverse_type d p ty →
      e.2 = fully_qualified_ident d p
  | .string, e, he => by
    rw [show traverse_type d p .string =
      [(none, fully_qualified_ident d p)] from rfl] at he
    rcases List.mem_singleton.mp he with rfl
    rfl
  | .reference t, e, he => by
    by_cases hc : pascal_case t ≠ p
    · rw [show traverse_type d p (.reference t) =
        [(some (resolve_reference d t (pascal_case t)),
          fully_qualified_ident d p)] from by simp [traverse_type, hc]] at he
      rcases List.mem_singleton.mp he with rfl
      rfl
    · rw [show traverse_type d p (.reference t) = [] from by
        simp [traverse_type, hc]] at he
      cases he
  | .array ides it mi ma, e, he =>
    traverse_type_target d p it e (by
      rw [show traverse_type d p (.array ides it mi ma) =
        traverse_type d p it from rfl] at he
      exact he)
  | .object fs, e, he =>
    traverse_fields_target d p fs e (by
      rw [show traverse_type d p (.object fs) =
        traverse_fields d p fs from rfl] at he
      exact he)
  | .boolean, e, he => by cases he
  | .integer, e, he => by cases he
  | .number, e, he => by cases he
  | .enum vs, e, he => by
    rw [show traverse_type d p (.enum vs) = [] from rfl] at he
    cases he
  | .any, e, he => by cases he

theorem traverse_fields_target (d p : String) :
    ∀ (fs : List Field) (e : Option String × String),
      e ∈ traverse_fields d p fs → e.2 = fully_qualified_ident d p
  | [], e, he => by cases he
  | .mk n ds ex dep o ty :: rest, e, he => by
    rw [show traverse_fields d p (.mk n ds ex dep o ty :: rest) =
      traverse_type d p ty ++ traverse_fields d p rest from rfl] at he
    rcases List.mem_append.mp he with h' | h'
    · exact traverse_type_target d p ty e h'
    · exact traverse_fields_target d p rest e h'

end

theorem traverse_type_primitive (d p : String) (ty : Type')
    (h : ty.primitiveShallow = true) : traverse_type d p ty = [] := by
  cases ty <;> simp [Type'.primitiveShallow] at h <;> rfl

theorem traverse_fields_primitive (d p : String) :
    ∀ (fs : List Field), (∀ f ∈ fs, f.ty.primitiveShallow = true) →
    traverse_fields d p fs = [] := by
  intro fs
  induction fs with
  | nil => intro _; rfl
  | cons f rest ih =>
    intro h
    rcases f with ⟨n, ds, ex, dep, o, ty⟩
    rw [show traverse_fields d p (.mk n ds ex dep o ty :: rest) =
      traverse_type d p ty ++ traverse_fields d p rest from rfl]
    rw [traverse_type_primitive d p ty
      (by simpa [Field.ty] using h _ (List.mem_cons_self _ _)),
      ih (fun g hg => h g (List.mem_cons_of_mem _ hg))]
    rfl

theorem mem_collectEdges (domains : List Domain) (e : Option String × String) :
    e ∈ collectEdges domains ↔ ∃ dom ∈ domains, e ∈ domainEdges dom := by
  rw [collectEdges, List.mem_flatMap]

theorem mem_domainEdges (dom : Domain) (e : Option String × String) :
    e ∈ domainEdges dom ↔
      (∃ m ∈ dom.commands ++ dom.events,
        e ∈ traverse_fields (snake_case dom.name) (pascal_case m.name)
          (m.parameters ++ m.returns)) ∨
      (∃ td ∈ dom.type_defs,
        e ∈ traverse_type (snake_case dom.name) (pascal_case td.name) td.ty) := by
  rw [domainEdges]
  constructor
  · intro h
    rcases List.mem_append.mp h with h' | h'
    · obtain ⟨m, hm, hme⟩ := List.mem_flatMap.mp h'
      exact Or.inl ⟨m, hm, hme⟩
    · obtain ⟨td, htd, hte⟩ := List.mem_flatMap.mp h'
      exact Or.inr ⟨td, htd, hte⟩
  · intro h
    rcases h with ⟨m, hm, hme⟩ | ⟨td, htd, hte⟩
    · exact List.mem_append.mpr (Or.inl (List.mem_flatMap.mpr ⟨m, hm, hme⟩))
    · exact List.mem_append.mpr (Or.inr (List.mem_flatMap.mpr ⟨td, htd, hte⟩))

theorem no_target_not_marked (domains : List Domain) (x : String)
    (h : ∀ e ∈ collectEdges domains, e.2 ≠ x) :
    x ∉ generate_uses_lifetime_set domains := by
  intro hmem
  have hreach := (mem_reachClosure_iff (collectEdges domains) (some x)).mp
    ((mem_uses_lifetime_iff domains x).mp hmem)
  obtain ⟨a, ha⟩ := rtg_some_is_target (collectEdges domains) x hreach
  exact h (a, x) ha rfl

/-- C2: a generated named type is marked "borrows" if and only if the
raw-string node reaches it in the reference graph; the set is a function only
of edge-set membership (traversal-order independent); the edges are exactly as
claimed — a `String` field marks the enclosing item, a cross reference adds an
edge from the resolved target to the enclosing item, a self-reference adds no
edge, arrays and nested objects recurse under the same enclosing identity,
and primitive/enum fields add nothing; and an item of primitive-only fields
with no identity collision is never marked. -/
theorem uses_lifetime_iff_string_reachable (domains : List Domain) (x : String)
    (d p t : String) (ides : Option String) (it : Type')
    (mi ma : Option Nat) (fs : List Field) (vs : List String)
    (l₁ l₂ : List (Option String × String)) :
    (x ∈ generate_uses_lifetime_set domains ↔
      Relation.ReflTransGen (EdgeStep (collectEdges domains)) none (some x)) ∧
    ((∀ e, e ∈ l₁ ↔ e ∈ l₂) →
      ∀ y, y ∈ reachClosure l₁ ↔ y ∈ reachClosure l₂) ∧
    (traverse_type d p .string = [(none, fully_qualified_ident d p)]) ∧
    (pascal_case t = p → traverse_type d p (.reference t) = []) ∧
    (pascal_case t ≠ p → traverse_type d p (.reference t) =
      [(some (resolve_reference d t (pascal_case t)),
        fully_qualified_ident d p)]) ∧
    (traverse_type d p (.array ides it mi ma) = traverse_type d p it) ∧
    (traverse_type d p (.object fs) = traverse_fields d p fs) ∧
    (traverse_type d p .boolean = [] ∧ traverse_type d p .integer = [] ∧
      traverse_type d p .number = [] ∧ traverse_type d p (.enum vs) = [] ∧
      traverse_type d p .any = []) ∧
    ((∀ f ∈ fs, f.ty.primitiveShallow = true) →
      traverse_fields d p fs = []) ∧
    ((∀ e ∈ collectEdges domains, e.2 ≠ x) →
      x ∉ generate_uses_lifetime_set domains) ∧
    (∀ (dom : Domain) (td : TypeDef) (fields2 : List Field),
      dom ∈ domains → td ∈ dom.type_defs →
      td.ty = .object fields2 →
      (∀ f ∈ fields2, f.ty.primitiveShallow = true) →
      (∀ dom' ∈ domains, ∀ m ∈ dom'.commands ++ dom'.events,
        fully_qualified_ident (snake_case dom'.name) (pascal_case m.name) ≠
          fully_qualified_ident (snake_case dom.name) (pascal_case td.name)) →
      (∀ dom' ∈ domains, ∀ td' ∈ dom'.type_defs,
        fully_qualified_ident (snake_case dom'.name) (pascal_case td'.name) =
          fully_qualified_ident (snake_case dom.name) (pascal_case td.name) →
        td'.ty = td.ty) →
      fully_qualified_ident (snake_case dom.name) (pascal_case td.name) ∉
        generate_uses_lifetime_set domains) := by
  refine ⟨?_, ?_, rfl, ?_, ?_, rfl, rfl, ⟨rfl, rfl, rfl, rfl, rfl⟩, ?_, ?_, ?_⟩
  · rw [mem_uses_lifetime_iff, mem_reachClosure_iff]
  · intro h y
    rw [mem_reachClosure_iff, mem_reachClosure_iff]
    constructor
    · exact Relation.ReflTransGen.mono
        (fun a b hab => by
          obtain ⟨u, hu, hm⟩ := hab
          exact ⟨u, hu, (h _).mp hm⟩)
    · exact Relation.ReflTransGen.mono
        (fun a b hab => by
          obtain ⟨u, hu, hm⟩ := hab
          exact ⟨u, hu, (h _).mpr hm⟩)
  · intro hc
    simp [traverse_type, hc]
  · intro hc
    simp [traverse_type, hc]
  · exact traverse_fields_primitive d p fs
  · exact no_target_not_marked domains x
  · intro dom td fields2 hdom htd hty hprim hmeth htds
    refine no_target_not_marked domains _ ?_
    intro e he
    intro hx
    obtain ⟨dom', hdom', he'⟩ := (mem_collectEdges domains e).mp he
    rcases (mem_domainEdges dom' e).mp he' with ⟨m, hm, hme⟩ | ⟨td', htd', hte⟩
    · have := traverse_fields_target (snake_case dom'.name)
        (pascal_case m.name) _ e hme
      rw [hx] at this
      exact hmeth dom' hdom' m hm this.symm
    · have htgt := traverse_type_target (snake_case dom'.name)
        (pascal_case td'.name) td'.ty e hte
      rw [hx] at htgt
      have hty' := htds dom' hdom' td' htd' htgt.symm
      rw [hty', hty] at hte
      rw [show traverse_type (snake_case dom'.name) (pascal_case td'.name)
        (.object fields2) = traverse_fields (snake_case dom'.name)
        (pascal_case td'.name) fields2 from rfl,
        traverse_fields_primitive _ _ fields2 hprim] at hte
      cases hte

/-- Witness for `uses_lifetime_iff_string_reachable` on a one-domain schema
with a string-carrying type `WithText` and a primitive-only type `Plain`:
duplicate edges do not change the computed set; a self-reference adds no edge
while a cross reference does; primitive-only fields contribute no edges; an
identity no edge targets, and in particular the primitive-only `Plain`, is
not marked. -/
theorem uses_lifetime_iff_string_reachable_witness :
    ((some "q" ∈ reachClosure [(none, "q")]) ↔
      (some "q" ∈ reachClosure [(none, "q"), (none, "q")])) ∧
    traverse_type "dom" "Node" (.reference "Node") = [] ∧
    traverse_type "dom" "Node" (.reference "Other") =
      [(some "::dom::Other", "::dom::Node")] ∧
    traverse_fields "dom" "Plain" [.mk "n" none false false false .integer] =
      [] ∧
    "nonexistent" ∉ generate_uses_lifetime_set
      [⟨"DomA", none, false, false, [],
        [⟨"WithText", none, false, false,
          .object [.mk "s" none false false false .string]⟩,
         ⟨"Plain", none, false, false,
          .object [.mk "n" none false false false .integer]⟩], [], []⟩] ∧
    "::dom_a::Plain" ∉ generate_uses_lifetime_set
      [⟨"DomA", none, false, false, [],
        [⟨"WithText", none, false, false,
          .object [.mk "s" none false false false .string]⟩,
         ⟨"Plain", none, false, false,
          .object [.mk "n" none false false false .integer]⟩], [], []⟩] := by
  refine ⟨?_, ?_, ?_, ?_, ?_, ?_⟩
  · exact (uses_lifetime_iff_string_reachable [] "" "" "" "" none .any none none
      [] [] [(none, "q")] [(none, "q"), (none, "q")]).2.1
      (by intro e; simp) (some "q")
  · exact (uses_lifetime_iff_string_reachable [] "" "dom" "Node" "Node" none
      .any none none [] [] [] []).2.2.2.1 (by decide)
  · exact ((uses_lifetime_iff_string_reachable [] "" "dom" "Node" "Other" none
      .any none none [] [] [] []).2.2.2.2.1 (by decide)).trans (by decide)
  · exact (uses_lifetime_iff_string_reachable [] "" "dom" "Plain" "" none
      .any none none [.mk "n" none false false false .integer] [] [] []).2.2.2.2.2.2.2.2.1
      (by decide)
  · exact (uses_lifetime_iff_string_reachable
      [⟨"DomA", none, false, false, [],
        [⟨"WithText", none, false, false,
          .object [.mk "s" none false false false .string]⟩,
         ⟨"Plain", none, false, false,
          .object [.mk "n" none false false false .integer]⟩], [], []⟩]
      "nonexistent" "" "" "" none .any none none [] [] [] []).2.2.2.2.2.2.2.2.2.1
      (by decide)
  · exact (uses_lifetime_iff_string_reachable
      [⟨"DomA", none, false, false, [],
        [⟨"WithText", none, false, false,
          .object [.mk "s" none false false false .string]⟩,
         ⟨"Plain", none, false, false,
          .object [.mk "n" none false false false .integer]⟩], [], []⟩]
      "" "" "" "" none .any none none [] [] [] []).2.2.2.2.2.2.2.2.2.2
      ⟨"DomA", none, false, false, [],
        [⟨"WithText", none, false, false,
          .object [.mk "s" none false false false .string]⟩,
         ⟨"Plain", none, false, false,
          .object [.mk "n" none false false false .integer]⟩], [], []⟩
      ⟨"Plain", none, false, false,
        .object [.mk "n" none false false false .integer]⟩
      [.mk "n" none false false false .integer]
      (List.mem_singleton.mpr rfl)
      (List.mem_cons_of_mem _ (List.mem_cons_self _ _))
      rfl
      (by decide)
      (by
        intro dom' hd m hm hfq
        rcases List.mem_singleton.mp hd with rfl
        simp at hm)
      (by
        intro dom' hd td' htd' hfq
        rcases List.mem_singleton.mp hd with rfl
        rcases List.mem_cons.mp htd' with rfl | htd''
        · exact absurd hfq (by decide)
        · rcases List.mem_singleton.mp htd'' with rfl
          rfl)

theorem scanAlnumUntilDot_some :
    ∀ (cs a b : List Char), scanAlnumUntilDot cs = some (a, b) →
    cs = a ++ '.' :: b ∧ a.all Char.isAlphanum = true := by
  intro cs
  induction cs with
  | nil => intro a b h; cases h
  | cons c rest ih =>
    intro a b h
    by_cases hc : c = '.'
    · rw [show scanAlnumUntilDot (c :: rest) = some ([], rest) from by
        simp [scanAlnumUntilDot, hc]] at h
      injection h with h'
      injection h' with h1 h2
      subst h1
      subst h2
      simp [hc]
    · by_cases ha : c.isAlphanum
      · rw [show scanAlnumUntilDot (c :: rest) =
          (scanAlnumUntilDot rest).map (fun p => (c :: p.1, p.2)) from by
            simp [scanAlnumUntilDot, hc, ha]] at h
        rcases hscan : scanAlnumUntilDot rest with _ | ⟨a₀, b₀⟩ <;>
          rw [hscan] at h
        · cases h
        · injection h with h'
          injection h' with h1 h2
          subst h1
          subst h2
          obtain ⟨hrest, hall⟩ := ih a₀ b₀ hscan
          subst hrest
          simp [ha, hall]
      · rw [show scanAlnumUntilDot (c :: rest) = none from by
          simp [scanAlnumUntilDot, hc, ha]] at h
        cases h

theorem scanAlnumUntilDot_complete :
    ∀ (a cs b : List Char), cs = a ++ '.' :: b →
    a.all Char.isAlphanum = true → scanAlnumUntilDot cs = some (a, b) := by
  intro a
  induction a with
  | nil =>
    intro cs b hcs _
    subst hcs
    simp [scanAlnumUntilDot]
  | cons c a' ih =>
    intro cs b hcs hall
    subst hcs
    simp only [List.all_cons, Bool.and_eq_true] at hall
    have hc : c ≠ '.' := by
      intro hdot
      subst hdot
      have : ('.').isAlphanum = false := by decide
      rw [this] at hall
      exact absurd hall.1 (by simp)
    show scanAlnumUntilDot (c :: (a' ++ '.' :: b)) = some (c :: a', b)
    rw [show scanAlnumUntilDot (c :: (a' ++ '.' :: b)) =
      (scanAlnumUntilDot (a' ++ '.' :: b)).map (fun p => (c :: p.1, p.2)) from by
        simp [scanAlnumUntilDot, hc, hall.1]]
    rw [ih (a' ++ '.' :: b) b rfl hall.2]
    rfl

/-- C9 amended: reference resolution is purely syntactic and total.  A target
that is exactly `alnum+.alnum+` (one separator, non-empty alphanumeric parts)
is split and resolved in the referenced domain's namespace; any other target
— even one containing separators, or one naming a type absent from every
domain — resolves without error in the referencing domain's namespace; no
existence check is performed at schema-load time. -/
theorem reference_resolution_syntactic (d t p : String) :
    (∀ a b, inter_domain_captures t = some (a, b) →
      t.data = a.data ++ '.' :: b.data ∧ a.data ≠ [] ∧ b.data ≠ [] ∧
      a.data.all Char.isAlphanum = true ∧ b.data.all Char.isAlphanum = true ∧
      resolve_reference d t p =
        fully_qualified_ident (snake_case a) (pascal_case b)) ∧
    (inter_domain_captures t = none →
      resolve_reference d t p = fully_qualified_ident d p) ∧
    (∀ a b : String, t.data = a.data ++ '.' :: b.data → a.data ≠ [] →
      b.data ≠ [] → a.data.all Char.isAlphanum = true →
      b.data.all Char.isAlphanum = true →
      inter_domain_captures t = some (a, b)) := by
  refine ⟨?_, ?_, ?_⟩
  · intro a b h
    have hcap := h
    unfold inter_domain_captures at h
    rcases hscan : scanAlnumUntilDot t.data with _ | ⟨a₀, b₀⟩ <;>
      rw [hscan] at h
    · cases h
    · replace h : (if a₀ ≠ [] ∧ b₀ ≠ [] ∧ b₀.all Char.isAlphanum = true then
          some (String.mk a₀, String.mk b₀) else none) = some (a, b) := h
      split at h
      · rename_i hcond
        injection h with h'
        injection h' with h1 h2
        subst h1
        subst h2
        obtain ⟨hsplit, hall⟩ := scanAlnumUntilDot_some t.data a₀ b₀ hscan
        refine ⟨hsplit, hcond.1, hcond.2.1, hall, hcond.2.2, ?_⟩
        unfold resolve_reference
        rw [hcap]
      · cases h
  · intro h
    unfold resolve_reference
    rw [h]
  · intro a b hsplit hane hbne haall hball
    unfold inter_domain_captures
    rw [scanAlnumUntilDot_complete a.data t.data b.data hsplit haall]
    show (if a.data ≠ [] ∧ b.data ≠ [] ∧ b.data.all Char.isAlphanum = true then
        some (String.mk a.data, String.mk b.data) else none) = some (a, b)
    rw [if_pos ⟨hane, hbne, hball⟩]

/-- C9 counterexample: the target `A.B.C` contains the domain-qualifying
separator yet is not split — the regex requires exactly `alnum+.alnum+`, so
the target resolves in the referencing type's own domain; and resolving a
target absent from every domain (`Missing` — resolution consults no schema at
all) succeeds with an identifier instead of failing at schema-load time. -/
theorem reference_resolution_counterexample :
    ("A.B.C".data.contains '.' = true) ∧
    inter_domain_captures "A.B.C" = none ∧
    resolve_reference "dom" "A.B.C" (pascal_case "A.B.C") =
      fully_qualified_ident "dom" (pascal_case "A.B.C") ∧
    pascal_case "A.B.C" = "ABC" ∧
    resolve_reference "dom" "Missing" (pascal_case "Missing") =
      "::dom::Missing" := by
  refine ⟨by decide, by decide, by decide, by decide, by decide⟩

/-- Witness for `reference_resolution_syntactic`: `net.Frame` is split and
resolved cross-domain; `LocalRef` resolves in the referencing domain. -/
theorem reference_resolution_syntactic_witness :
    (inter_domain_captures "net.Frame" = some ("net", "Frame")) ∧
    resolve_reference "page" "net.Frame" "NetFrame" =
      fully_qualified_ident (snake_case "net") (pascal_case "Frame") ∧
    resolve_reference "page" "LocalRef" "LocalRef" =
      fully_qualified_ident "page" "LocalRef" := by
  refine ⟨?_, ?_, ?_⟩
  · exact (reference_resolution_syntactic "page" "net.Frame" "X").2.2 "net"
      "Frame" (by decide) (by decide) (by decide) (by decide) (by decide)
  · exact ((reference_resolution_syntactic "page" "net.Frame" "NetFrame").1
      "net" "Frame" (by decide)).2.2.2.2.2
  · exact (reference_resolution_syntactic "page" "LocalRef" "LocalRef").2.1
      (by decide)

end Cdp
